import Mathlib

/-!
Shallow embedding of the buffer-pool components of `yuchanns/cmu15-445-645`:

* `LRUK`  — the LRU-K replacement policy from
  `src/bustub/src/include/buffer/lru_k_replacer.h` (internal methods
  `FindInternal`, `RemoveInternal`, `SetEvictableInternal`,
  `RecordAccessInternal`, `EvictInternal`) together with the thin locked
  wrappers of `src/buffer/lru_k_replacer.cpp`.  Each public operation is a
  single critical section, so the sequential semantics modelled here is
  exactly the per-call semantics of the C++ class.

* `EHT` — the extendible hash table from
  `src/container/hash/extendible_hash_table.cpp`.

C++ `size_t` values are modelled as `Nat`.  All arithmetic performed by the
code on reachable states stays far below `2^64` (the logical clock advances
by one per call), so no modular reduction is applied; the one place where
the concrete value of `SIZE_MAX` matters (the sentinel distance in
`EvictInternal`) uses the literal `2^64 - 1` and theorems carry the
corresponding bound as a hypothesis.  `BUSTUB_ASSERT` failures abort the
process; operations that can assert are modelled as partial (`Option` /
`Except`), where the `Except.error` payload is the object state at the
moment the assertion fires.
-/

namespace LRUK

/-- `SIZE_MAX` for 64-bit `size_t`. -/
def SIZE_MAX : Nat := 2 ^ 64 - 1

/-- `struct FrameInfo { frame_id_t frame_id; std::vector<size_t> accesses; bool evictable; }`. -/
structure FrameInfo where
  frame_id : Nat
  accesses : List Nat
  evictable : Bool
deriving Repr, DecidableEq, Inhabited

/-- The member state of `class LRUKReplacer` (the mutex is irrelevant to the
sequential per-call semantics). -/
structure Replacer where
  current_timestamp_ : Nat
  curr_size_ : Nat
  replacer_size_ : Nat
  k_ : Nat
  frames_ : List FrameInfo
deriving Repr, DecidableEq, Inhabited

/-- `LRUKReplacer(num_frames, k)`: the constructor in `lru_k_replacer.cpp`
initialises `current_timestamp_` from `std::time(nullptr)`; the start value
`t0` is therefore a parameter. `curr_size_` defaults to `0`, `frames_` empty. -/
def mkReplacer (num_frames k t0 : Nat) : Replacer :=
  { current_timestamp_ := t0, curr_size_ := 0, replacer_size_ := num_frames,
    k_ := k, frames_ := [] }

/-- `FindInternal`: index of the first element of `frames_` whose
`frame_id` matches, scanning from the front. -/
def FindInternal : List FrameInfo → Nat → Option Nat
  | [], _ => none
  | f :: fs, fid =>
      if f.frame_id = fid then some 0 else (FindInternal fs fid).map (· + 1)

/-- `RemoveInternal`: no-op if the frame is untracked; asserts (aborts,
modelled `none`) if the frame is tracked but non-evictable; otherwise erases
the frame and decrements `curr_size_`. -/
def RemoveInternal (s : Replacer) (fid : Nat) : Option Replacer :=
  match FindInternal s.frames_ fid with
  | none => some s
  | some i =>
      if (s.frames_.getD i default).evictable then
        some { s with frames_ := s.frames_.eraseIdx i,
                      curr_size_ := s.curr_size_ - 1 }
      else none

/-- `SetEvictableInternal`: asserts (modelled `none`) if the frame is
untracked; adjusts `curr_size_` only on an actual flag transition. -/
def SetEvictableInternal (s : Replacer) (fid : Nat) (ev : Bool) : Option Replacer :=
  match FindInternal s.frames_ fid with
  | none => none
  | some i =>
      let f := s.frames_.getD i default
      let size' :=
        if !f.evictable && ev then s.curr_size_ + 1
        else if f.evictable && !ev then s.curr_size_ - 1
        else s.curr_size_
      some { s with curr_size_ := size',
                    frames_ := s.frames_.set i { f with evictable := ev } }

/-- `RecordAccessInternal`: increments the clock FIRST, then looks the frame
up; a brand-new frame is appended (non-evictable) provided
`frames_.size() < replacer_size_`, else `BUSTUB_ASSERT` fires — the
`Except.error` payload is the state at that moment (clock already advanced). -/
def RecordAccessInternal (s : Replacer) (fid : Nat) : Except Replacer Replacer :=
  let s1 := { s with current_timestamp_ := s.current_timestamp_ + 1 }
  match FindInternal s1.frames_ fid with
  | some i =>
      let f := s1.frames_.getD i default
      .ok { s1 with
              frames_ := s1.frames_.set i
                { f with accesses := f.accesses ++ [s1.current_timestamp_] } }
  | none =>
      if s1.frames_.length < s1.replacer_size_ then
        .ok { s1 with
                frames_ := s1.frames_ ++
                  [{ frame_id := fid, accesses := [s1.current_timestamp_],
                     evictable := false }] }
      else
        .error s1

/-- One iteration of the scan loop of `EvictInternal`, applied to the frames
in reverse order (`rbegin` .. `rend`).  The accumulator is
`(distance, found, victim)`; `victim = none` models the out-parameter not yet
having been written. -/
def scanStep (T k : Nat) (acc : Nat × Bool × Option Nat) (f : FrameInfo) :
    Nat × Bool × Option Nat :=
  if !f.evictable then acc
  else
    let dist := acc.1
    let vic := acc.2.2
    if f.accesses.length < k then (SIZE_MAX, true, some f.frame_id)
    else if T - f.accesses.getD (f.accesses.length - k) 0 > dist then
      (T - f.accesses.getD (k - 1) 0, true, some f.frame_id)
    else (dist, true, vic)

/-- `EvictInternal`: advances the clock, scans `frames_` from the back,
then removes the selected victim.  The two inner fallback arms are
unreachable on well-formed states (the victim, once written, is an evictable
tracked frame); in C++ they would dereference an unwritten out-parameter. -/
def EvictInternal (s : Replacer) : Option Nat × Replacer :=
  let T := s.current_timestamp_ + 1
  let s1 := { s with current_timestamp_ := T }
  let r := s1.frames_.reverse.foldl (scanStep T s1.k_) (0, false, none)
  if r.2.1 then
    match r.2.2 with
    | some id =>
        match RemoveInternal s1 id with
        | some s2 => (some id, s2)
        | none => (some id, s1)
    | none => (none, s1)
  else (none, s1)

/-- The public calls (each one lock-acquire + internal call). -/
inductive ROp where
  | ra (fid : Nat)
  | se (fid : Nat) (ev : Bool)
  | rm (fid : Nat)
  | ev
deriving Repr, DecidableEq

/-- Run one public call; `none` when the call aborts on an assertion. -/
def runROp (s : Replacer) : ROp → Option Replacer
  | .ra fid => match RecordAccessInternal s fid with
               | .ok s' => some s'
               | .error _ => none
  | .se fid ev => SetEvictableInternal s fid ev
  | .rm fid => RemoveInternal s fid
  | .ev => some (EvictInternal s).2

/-- Run a list of public calls left to right. -/
def runROps (s : Replacer) : List ROp → Option Replacer
  | [] => some s
  | op :: ops => match runROp s op with
                 | some s' => runROps s' ops
                 | none => none

/-- States reachable from a fresh replacer by successful public calls. -/
inductive Reach : Replacer → Prop
  | init (n k t0 : Nat) : Reach (mkReplacer n k t0)
  | record {s s' : Replacer} (fid : Nat) :
      Reach s → RecordAccessInternal s fid = .ok s' → Reach s'
  | setEv {s s' : Replacer} (fid : Nat) (ev : Bool) :
      Reach s → SetEvictableInternal s fid ev = some s' → Reach s'
  | remove {s s' : Replacer} (fid : Nat) :
      Reach s → RemoveInternal s fid = some s' → Reach s'
  | evict {s : Replacer} (r : Option Nat) (s' : Replacer) :
      Reach s → EvictInternal s = (r, s') → Reach s'

/-- Number of frames currently flagged evictable. -/
def countEv (l : List FrameInfo) : Nat := (l.filter (·.evictable)).length

/-- Modelled from the spec: the backward k-distance of a frame at logical
time `T` — `none` stands for `+infinity` (fewer than `k` recorded accesses),
otherwise `T` minus the timestamp of the k-th most recent access. -/
def specBackwardKDist (k T : Nat) (f : FrameInfo) : Option Nat :=
  if f.accesses.length < k then none
  else some (T - f.accesses.getD (f.accesses.length - k) 0)

theorem countEv_cons (f : FrameInfo) (l : List FrameInfo) :
    countEv (f :: l) = countEv l + if f.evictable then 1 else 0 := by
  by_cases h : f.evictable <;> simp [countEv, List.filter_cons, h]

theorem findInternal_some {l : List FrameInfo} {fid i : Nat}
    (h : FindInternal l fid = some i) :
    i < l.length ∧ (l.getD i default).frame_id = fid := by
  induction l generalizing i with
  | nil => simp [FindInternal] at h
  | cons f fs ih =>
    by_cases hf : f.frame_id = fid
    · simp [FindInternal, hf] at h
      subst h
      simpa using hf
    · simp only [FindInternal, hf, if_false, Option.map_eq_some'] at h
      obtain ⟨j, hj, rfl⟩ := h
      obtain ⟨h1, h2⟩ := ih hj
      exact ⟨by simpa using h1, by simpa using h2⟩

theorem countEv_set {l : List FrameInfo} {i : Nat} (g : FrameInfo)
    (h : i < l.length) :
    countEv (l.set i g) + (if (l.getD i default).evictable then 1 else 0)
      = countEv l + (if g.evictable then 1 else 0) := by
  induction l generalizing i with
  | nil => simp at h
  | cons f fs ih =>
    cases i with
    | zero => simp [countEv_cons]; omega
    | succ j =>
      have hj : j < fs.length := by simpa using h
      have := ih hj
      simp only [List.set_cons_succ, countEv_cons, List.getD_cons_succ]
      omega

theorem countEv_eraseIdx {l : List FrameInfo} {i : Nat} (h : i < l.length) :
    countEv (l.eraseIdx i) + (if (l.getD i default).evictable then 1 else 0)
      = countEv l := by
  induction l generalizing i with
  | nil => simp at h
  | cons f fs ih =>
    cases i with
    | zero => simp [countEv_cons]
    | succ j =>
      have hj : j < fs.length := by simpa using h
      have := ih hj
      simp only [List.eraseIdx_cons_succ, countEv_cons, List.getD_cons_succ]
      omega

theorem countEv_append_single (l : List FrameInfo) (g : FrameInfo) :
    countEv (l ++ [g]) = countEv l + if g.evictable then 1 else 0 := by
  by_cases h : g.evictable <;> simp [countEv, List.filter_append, h]

theorem record_preserves_countEv {s s' : Replacer} {fid : Nat}
    (h : RecordAccessInternal s fid = .ok s') :
    s'.curr_size_ = s.curr_size_ ∧ countEv s'.frames_ = countEv s.frames_ := by
  simp only [RecordAccessInternal] at h
  split at h
  · rename_i i heq
    obtain ⟨hi, _⟩ := findInternal_some heq
    cases h
    refine ⟨rfl, ?_⟩
    have := countEv_set (l := s.frames_) (i := i)
      { (s.frames_.getD i default) with
        accesses := (s.frames_.getD i default).accesses ++ [s.current_timestamp_ + 1] } hi
    simpa using this
  · split at h
    · cases h
      refine ⟨rfl, ?_⟩
      simp [countEv_append_single]
    · cases h

theorem setEv_preserves_inv {s s' : Replacer} {fid : Nat} {ev : Bool}
    (h : SetEvictableInternal s fid ev = some s')
    (hinv : s.curr_size_ = countEv s.frames_) :
    s'.curr_size_ = countEv s'.frames_ := by
  unfold SetEvictableInternal at h
  split at h
  · cases h
  · rename_i i heq
    obtain ⟨hi, _⟩ := findInternal_some heq
    cases h
    have hset := countEv_set (l := s.frames_) (i := i)
      { (s.frames_.getD i default) with evictable := ev } hi
    simp only at hset ⊢
    generalize hg : s.frames_.getD i default = g at hset ⊢
    by_cases h1 : g.evictable <;>
      cases ev <;> simp [h1] at hset ⊢ <;> omega

theorem remove_preserves_inv {s s' : Replacer} {fid : Nat}
    (h : RemoveInternal s fid = some s')
    (hinv : s.curr_size_ = countEv s.frames_) :
    s'.curr_size_ = countEv s'.frames_ := by
  unfold RemoveInternal at h
  split at h
  · cases h; exact hinv
  · rename_i i heq
    obtain ⟨hi, _⟩ := findInternal_some heq
    split at h
    · rename_i hev
      cases h
      have := countEv_eraseIdx (l := s.frames_) (i := i) hi
      simp only [hev, if_pos] at this
      simp only
      omega
    · cases h

theorem evict_preserves_inv {s s' : Replacer} {r : Option Nat}
    (h : EvictInternal s = (r, s'))
    (hinv : s.curr_size_ = countEv s.frames_) :
    s'.curr_size_ = countEv s'.frames_ := by
  simp only [EvictInternal] at h
  split at h
  · split at h
    · rename_i id
      split at h
      · rename_i s2 hrem
        cases h
        exact remove_preserves_inv hrem hinv
      · cases h; exact hinv
    · cases h; exact hinv
  · cases h; exact hinv

/-- C4: on every reachable replacer state, `curr_size_` equals the number of
tracked frames whose evictable flag is set. -/
theorem lruk_size_eq_countEv {s : Replacer} (h : Reach s) :
    s.curr_size_ = countEv s.frames_ := by
  induction h with
  | init n k t0 => rfl
  | record fid _ heq ih =>
    obtain ⟨h1, h2⟩ := record_preserves_countEv heq
    rw [h1, h2]; exact ih
  | setEv fid ev _ heq ih => exact setEv_preserves_inv heq ih
  | remove fid _ heq ih => exact remove_preserves_inv heq ih
  | evict r s' _ heq ih => exact evict_preserves_inv heq ih

theorem scan_first_inf {T k : Nat} (hT : T ≤ SIZE_MAX) {l : List FrameInfo}
    {f : FrameInfo}
    (hf : l.find? (fun g => g.evictable && decide (g.accesses.length < k)) = some f)
    (acc : Nat × Bool × Option Nat) :
    l.foldr (fun x y => scanStep T k y x) acc = (SIZE_MAX, true, some f.frame_id) := by
  induction l with
  | nil => simp at hf
  | cons a rest ih =>
    rw [List.foldr_cons]
    by_cases ha : (a.evictable && decide (a.accesses.length < k)) = true
    · rw [List.find?_cons_of_pos (p := fun (g : FrameInfo) => g.evictable && decide (g.accesses.length < k)) _ ha] at hf
      cases hf
      obtain ⟨hev, hlen⟩ := (Bool.and_eq_true _ _).mp ha
      simp [scanStep, hev, of_decide_eq_true hlen]
    · rw [List.find?_cons_of_neg (p := fun (g : FrameInfo) => g.evictable && decide (g.accesses.length < k)) _ ha] at hf
      rw [ih hf]
      by_cases hev : a.evictable
      · have hlen : ¬ a.accesses.length < k := by
          intro hl
          exact ha (by simp [hev, hl])
        have hsub : T - a.accesses.getD (a.accesses.length - k) 0 ≤ SIZE_MAX :=
          le_trans (Nat.sub_le _ _) hT
        simp only [scanStep, hev, Bool.not_true, Bool.false_eq_true, if_false,
          if_neg hlen]
        rw [if_neg (by omega)]
      · simp [scanStep, hev]

theorem evict_first_inf {s : Replacer} {f : FrameInfo}
    (hT : s.current_timestamp_ + 1 ≤ SIZE_MAX)
    (hf : s.frames_.find?
        (fun g => g.evictable && decide (g.accesses.length < s.k_)) = some f) :
    (EvictInternal s).1 = some f.frame_id := by
  simp only [EvictInternal, List.foldl_reverse]
  rw [scan_first_inf hT hf]
  cases hrem : RemoveInternal
      { s with current_timestamp_ := s.current_timestamp_ + 1 } f.frame_id <;>
    simp [hrem]

theorem find?_min_of_pairwise {α : Type} {p : α → Bool} {r : α → α → Prop}
    {l : List α} {f : α} (hp : l.Pairwise r) (hf : l.find? p = some f) :
    ∀ g ∈ l, p g = true → f = g ∨ r f g := by
  induction l with
  | nil => simp at hf
  | cons a rest ih =>
    rw [List.pairwise_cons] at hp
    by_cases ha : p a = true
    · rw [List.find?_cons_of_pos (p := p) _ ha] at hf
      cases hf
      intro g hg hpg
      rcases List.mem_cons.mp hg with rfl | hg'
      · exact Or.inl rfl
      · exact Or.inr (hp.1 g hg')
    · rw [List.find?_cons_of_neg (p := p) _ ha] at hf
      intro g hg hpg
      rcases List.mem_cons.mp hg with rfl | hg'
      · exact absurd hpg ha
      · exact ih hp.2 hf g hg' hpg

/-- Witness for C4 at a concrete reachable state: track frame 1, mark it
evictable, track frame 2 (non-evictable); `size()` is then `1`. -/
theorem lruk_size_eq_countEv_witness :
    Replacer.curr_size_
        { current_timestamp_ := 2, curr_size_ := 1, replacer_size_ := 3, k_ := 2,
          frames_ := [{ frame_id := 1, accesses := [1], evictable := true },
                      { frame_id := 2, accesses := [2], evictable := false }] }
      = countEv [{ frame_id := 1, accesses := [1], evictable := true },
                 { frame_id := 2, accesses := [2], evictable := false }] :=
  lruk_size_eq_countEv
    (Reach.record 2
      (Reach.setEv 1 true
        (Reach.record 1 (Reach.init 3 2 0) rfl) rfl) rfl)

/-- C1: `EvictInternal` does NOT always evict the frame of maximum backward
k-distance.  Concrete run (k = 2, capacity 3): accesses
`1,2,2,1,1,1,2,2`, both frames evictable.  At eviction time `T = 9` the
true backward k-distances are frame 1 ↦ `9 - 5 = 4` and frame 2 ↦
`9 - 7 = 2`, so the documented policy must evict frame 1 — but the code
returns frame 2, because the stored running distance uses
`accesses[k_ - 1]` (the k-th OLDEST access) instead of
`accesses[size - k]` (the k-th most recent), inflating frame 2's stored
distance to `9 - 3 = 6` which frame 1's true distance `4` cannot beat. -/
theorem lruk_c1_evict_not_max_kdist :
    (runROps (mkReplacer 3 2 0)
        [.ra 1, .ra 2, .ra 2, .ra 1, .ra 1, .ra 1, .ra 2, .ra 2,
         .se 1 true, .se 2 true]).map
        (fun s => ((EvictInternal s).1,
          s.frames_.map (fun f =>
            (f.frame_id, f.evictable,
             specBackwardKDist s.k_ (s.current_timestamp_ + 1) f))))
      = some (some 2, [(1, true, some 4), (2, true, some 2)]) := by decide

/-- C2 counterexample: k = 3, frame 1 has accesses `[1, 3]`, frame 2 has
accesses `[2]`, both evictable, both with fewer than k accesses (+inf
distance).  Frame 2's most recent access (2) is earlier than frame 1's (3),
so the claim requires evicting frame 2 — the code evicts frame 1 (the
+inf branch of the reverse scan unconditionally overwrites the victim, so
the frame earliest in tracking order wins). -/
theorem lruk_c2_counterexample :
    (runROps (mkReplacer 2 3 0) [.ra 1, .ra 2, .ra 1, .se 1 true, .se 2 true]).map
        (fun s => ((EvictInternal s).1,
          s.frames_.map (fun f => (f.frame_id, f.evictable, f.accesses))))
      = some (some 1, [(1, true, [1, 3]), (2, true, [2])]) := by decide

/-- C2 (amended): among evictable frames with fewer than k recorded accesses
(+inf backward k-distance), `evict()` returns the FIRST such frame in
tracking order, i.e. the one with the earliest FIRST recorded access
(`frames_` is ordered by first access), not the earliest most-recent
access. -/
theorem lruk_evict_inf_tiebreak (s : Replacer) (f : FrameInfo)
    (hT : s.current_timestamp_ + 1 ≤ SIZE_MAX)
    (hsorted : s.frames_.Pairwise
      (fun a b => a.accesses.getD 0 0 < b.accesses.getD 0 0))
    (hf : s.frames_.find?
        (fun g => g.evictable && decide (g.accesses.length < s.k_)) = some f) :
    (EvictInternal s).1 = some f.frame_id ∧
      ∀ g ∈ s.frames_, g.evictable = true → g.accesses.length < s.k_ →
        f.accesses.getD 0 0 ≤ g.accesses.getD 0 0 := by
  refine ⟨evict_first_inf hT hf, ?_⟩
  intro g hg hev hlen
  have hmin := find?_min_of_pairwise hsorted hf g hg (by simp [hev, hlen])
  rcases hmin with rfl | hlt
  · exact le_refl _
  · exact Nat.le_of_lt hlt

/-- Witness for the amended C2 at the counterexample state: frame 1 (first
access 1) is returned and has the smallest first access among the +inf-tied
frames. -/
theorem lruk_evict_inf_tiebreak_witness :
    (EvictInternal
        { current_timestamp_ := 3, curr_size_ := 2, replacer_size_ := 2, k_ := 3,
          frames_ := [{ frame_id := 1, accesses := [1, 3], evictable := true },
                      { frame_id := 2, accesses := [2], evictable := true }] }).1
      = some 1 ∧
    ∀ g ∈ [({ frame_id := 1, accesses := [1, 3], evictable := true } : FrameInfo),
           { frame_id := 2, accesses := [2], evictable := true }],
      g.evictable = true → g.accesses.length < 3 →
        (1 : Nat) ≤ g.accesses.getD 0 0 :=
  lruk_evict_inf_tiebreak _
    { frame_id := 1, accesses := [1, 3], evictable := true }
    (by decide) (by decide) (by decide)

/-- C8 counterexample: a replacer with capacity 1 already tracking frame 5
(state reachable by `record_access(5)` from a fresh replacer with start
clock 0).  `record_access(7)` aborts on the capacity assertion, but the
state at the moment the assertion fires has `current_timestamp_ = 2`, not
the pre-call value 1: the clock is mutated BEFORE the capacity check. -/
theorem lruk_c8_counterexample :
    runROps (mkReplacer 1 2 0) [.ra 5]
        = some { current_timestamp_ := 1, curr_size_ := 0, replacer_size_ := 1,
                 k_ := 2,
                 frames_ := [{ frame_id := 5, accesses := [1], evictable := false }] } ∧
    RecordAccessInternal
        { current_timestamp_ := 1, curr_size_ := 0, replacer_size_ := 1, k_ := 2,
          frames_ := [{ frame_id := 5, accesses := [1], evictable := false }] } 7
      = .error { current_timestamp_ := 2, curr_size_ := 0, replacer_size_ := 1,
                 k_ := 2,
                 frames_ := [{ frame_id := 5, accesses := [1], evictable := false }] } ∧
    (2 : Nat) ≠ 1 :=
  ⟨rfl, rfl, by decide⟩

/-- C8 (amended): `record_access` on a brand-new frame id at capacity fails
on the assertion with frames, evictable flags and `curr_size_` untouched,
but the logical clock has already been advanced by 1 before the capacity
check. -/
theorem lruk_record_access_at_capacity (s : Replacer) (fid : Nat)
    (habs : FindInternal s.frames_ fid = none)
    (hcap : s.replacer_size_ ≤ s.frames_.length) :
    RecordAccessInternal s fid
      = .error { s with current_timestamp_ := s.current_timestamp_ + 1 } := by
  simp only [RecordAccessInternal, habs]
  rw [if_neg (by simpa using Nat.not_lt.mpr hcap)]

/-- Witness for the amended C8 at the concrete capacity-1 state. -/
theorem lruk_record_access_at_capacity_witness :
    RecordAccessInternal
        { current_timestamp_ := 1, curr_size_ := 0, replacer_size_ := 1, k_ := 2,
          frames_ := [{ frame_id := 5, accesses := [1], evictable := false }] } 7
      = .error { current_timestamp_ := 2, curr_size_ := 0, replacer_size_ := 1,
                 k_ := 2,
                 frames_ := [{ frame_id := 5, accesses := [1], evictable := false }] } :=
  lruk_record_access_at_capacity _ 7 rfl (by decide)

end LRUK

namespace EHT

/-- `class ExtendibleHashTable<K,V>::Bucket`.  The header
(`extendible_hash_table.h`) is not in the sources; the fields and the
accessors `GetDepth` / `IncrementDepth` / `IsFull` are forced by their uses
in `extendible_hash_table.cpp` and by the spec ("holds up to `bucket_size`
key-value pairs plus a `local_depth`"). -/
structure Bucket (K V : Type) where
  size_ : Nat
  depth_ : Nat
  list_ : List (K × V)
deriving Repr

/-- The member state of `ExtendibleHashTable<K,V>`.  C++ buckets are heap
objects shared between directory slots (`std::shared_ptr<Bucket>`); here
`store` is the heap (bucket id = index) and `dir_` holds bucket ids, so
aliasing is by id.  `hashFn` stands for `std::hash<K>` (stateless,
implementation-defined); it is carried in the state and never modified. -/
structure Table (K V : Type) where
  hashFn : K → Nat
  global_depth_ : Nat
  bucket_size_ : Nat
  num_buckets_ : Nat
  store : List (Bucket K V)
  dir_ : List Nat

variable {K V : Type} [DecidableEq K]

/-- Placeholder bucket for out-of-range heap lookups (never reached on
well-formed states: every id stored in `dir_` is a valid `store` index). -/
def defaultBucket : Bucket K V := { size_ := 0, depth_ := 0, list_ := [] }

/-- The constructor: `global_depth_ = 0`, `num_buckets_ = 1`, one empty
bucket of capacity `bucket_size` (local depth defaulted to 0) in a
one-slot directory. -/
def mkTable (hash : K → Nat) (bucket_size : Nat) : Table K V :=
  { hashFn := hash, global_depth_ := 0, bucket_size_ := bucket_size,
    num_buckets_ := 1,
    store := [{ size_ := bucket_size, depth_ := 0, list_ := [] }],
    dir_ := [0] }

/-- `IndexOf`: `std::hash<K>()(key) & ((1 << global_depth_) - 1)`, i.e. the
low `global_depth_` bits of the hash. -/
def IndexOf (s : Table K V) (key : K) : Nat :=
  s.hashFn key % 2 ^ s.global_depth_

/-- The bucket displayed at directory slot `i`. -/
def bAt (s : Table K V) (i : Nat) : Bucket K V :=
  s.store.getD (s.dir_.getD i 0) defaultBucket

/-- `Bucket::Find` body: scan the list front to back for the first entry
with a matching key. -/
def findList : List (K × V) → K → Option V
  | [], _ => none
  | e :: rest, key => if e.1 = key then some e.2 else findList rest key

/-- `Bucket::Remove` body: erase the first entry with a matching key;
return whether a removal occurred. -/
def removeList : List (K × V) → K → Bool × List (K × V)
  | [], _ => (false, [])
  | e :: rest, key =>
      if e.1 = key then (true, rest)
      else
        let r := removeList rest key
        (r.1, e :: r.2)

/-- The overwrite loop of `Bucket::Insert`: `some` of the updated list when
the key was found (its first entry's value replaced in place). -/
def overwriteList : List (K × V) → K → V → Option (List (K × V))
  | [], _, _ => none
  | e :: rest, key, value =>
      if e.1 = key then some ((e.1, value) :: rest)
      else (overwriteList rest key value).map (e :: ·)

/-- `Bucket::IsFull` (header not in the sources; the spec says a bucket
"holds up to `bucket_size` key-value pairs"): no free capacity left. -/
def Bucket.IsFull (b : Bucket K V) : Bool := b.size_ ≤ b.list_.length

/-- `Bucket::Insert`: overwrite in place if the key exists; else fail on a
full bucket; else append. -/
def Bucket.Insert (b : Bucket K V) (key : K) (value : V) : Bool × Bucket K V :=
  match overwriteList b.list_ key value with
  | some l => (true, { b with list_ := l })
  | none =>
      if b.IsFull then (false, b)
      else (true, { b with list_ := b.list_ ++ [(key, value)] })

/-- `ExtendibleHashTable::Find`: early return on `index >= dir_.size()`,
else delegate to the bucket. -/
def Find (s : Table K V) (key : K) : Option V :=
  let index := IndexOf s key
  if s.dir_.length ≤ index then none
  else findList (bAt s index).list_ key

/-- `ExtendibleHashTable::Remove`: early return on `index >= dir_.size()`,
else erase in the bucket (shared: the change is visible through every slot
referencing it). -/
def Remove (s : Table K V) (key : K) : Bool × Table K V :=
  let index := IndexOf s key
  if s.dir_.length ≤ index then (false, s)
  else
    let bid := s.dir_.getD index 0
    let b := s.store.getD bid defaultBucket
    let r := removeList b.list_ key
    (r.1, { s with store := s.store.set bid { b with list_ := r.2 } })

/-- The directory-doubling block of `Insert` (lines guarded by
`bucket->GetDepth() == global_depth_`): `global_depth_++` and every slot is
duplicated by pointer (the range-for over `dir_` after `reserve` appends a
copy of each original slot, so `dir_` becomes `dir_ ++ dir_`). -/
def growDirectory (s : Table K V) : Table K V :=
  { s with global_depth_ := s.global_depth_ + 1, dir_ := s.dir_ ++ s.dir_ }

/-- `bucket->IncrementDepth()` on the shared bucket object `bid`. -/
def IncrementDepth (s : Table K V) (bid : Nat) : Table K V :=
  let b := s.store.getD bid defaultBucket
  { s with store := s.store.set bid { b with depth_ := b.depth_ + 1 } }

/-- Modelled from the spec: `RedistributeBucket` (declared in the missing
header, called by `Insert`, body not in the sources).  Per spec section 4.2:
a new sibling bucket is created with the same (new) local depth; every entry
of the old bucket is redistributed between old and sibling by the
differentiating hash bit (bit `depth - 1`); every directory slot that
pointed at the old bucket and whose index bit at the new depth selects the
sibling is repointed; bucket count grows by one. -/
def RedistributeBucket (s : Table K V) (bid : Nat) : Table K V :=
  let b := s.store.getD bid defaultBucket
  let d := b.depth_
  let keep := b.list_.filter (fun e => !(s.hashFn e.1).testBit (d - 1))
  let move := b.list_.filter (fun e => (s.hashFn e.1).testBit (d - 1))
  let sibId := s.store.length
  { s with
    store := (s.store.set bid { b with list_ := keep }) ++
      [{ size_ := b.size_, depth_ := d, list_ := move }],
    dir_ := (List.range s.dir_.length).map (fun i =>
      if s.dir_.getD i 0 = bid ∧ i.testBit (d - 1) then sibId
      else s.dir_.getD i 0),
    num_buckets_ := s.num_buckets_ + 1 }

/-- `ExtendibleHashTable::Insert`, with the recursive retry made explicit
by a fuel parameter (`none` = the retry loop did not finish within the
fuel).  The shared bucket captured by `dir_.at(IndexOf(key))` at the top is
`bid`; its depth is read before any mutation, exactly as in the source. -/
def InsertFuel : Nat → Table K V → K → V → Option (Table K V)
  | 0, _, _, _ => none
  | n + 1, s, key, value =>
      let bid := s.dir_.getD (IndexOf s key) 0
      let b := s.store.getD bid defaultBucket
      let r := Bucket.Insert b key value
      if r.1 then some { s with store := s.store.set bid r.2 }
      else
        let s1 := if b.depth_ = s.global_depth_ then growDirectory s else s
        let s2 := IncrementDepth s1 bid
        let s3 := RedistributeBucket s2 bid
        InsertFuel n s3 key value

/-- `Insert` terminates on this input (some fuel suffices). -/
def InsertTerminates (s : Table K V) (key : K) (value : V) : Prop :=
  ∃ n s', InsertFuel n s key value = some s'

/-- The mutating public calls (Find is read-only). -/
inductive HOp (K V : Type) where
  | ins (k : K) (v : V)
  | rem (k : K)

/-- Run one mutating call (inserts each given `fuel`). -/
def runHOp (fuel : Nat) (s : Table K V) : HOp K V → Option (Table K V)
  | .ins k v => InsertFuel fuel s k v
  | .rem k => some (Remove s k).2

/-- Run a list of mutating calls left to right. -/
def runHOps (fuel : Nat) (s : Table K V) : List (HOp K V) → Option (Table K V)
  | [] => some s
  | op :: ops =>
      match runHOp fuel s op with
      | some s' => runHOps fuel s' ops
      | none => none

/-- Reference last-write-wins semantics of an operation history. -/
def specLookup (ops : List (HOp K V)) (key : K) : Option V :=
  ops.foldl (fun acc op =>
    match op with
    | .ins k v => if k = key then some v else acc
    | .rem k => if k = key then none else acc) none

/-- Table states reachable from a fresh table by completed public calls. -/
inductive Reach : Table K V → Prop
  | init (hash : K → Nat) (sz : Nat) : Reach (mkTable hash sz)
  | insert {s s' : Table K V} (n : Nat) (k : K) (v : V) :
      Reach s → InsertFuel n s k v = some s' → Reach s'
  | remove {s : Table K V} (k : K) : Reach s → Reach (Remove s k).2

end EHT

namespace EHT

variable {K V : Type} [DecidableEq K]

theorem getD_oob {α : Type} {l : List α} {i : Nat} (d : α) (h : l.length ≤ i) :
    l.getD i d = d := by
  rw [List.getD_eq_getElem?_getD, List.getElem?_eq_none h]
  rfl

theorem getD_set_self {α : Type} {l : List α} {i : Nat} (g d : α)
    (h : i < l.length) : (l.set i g).getD i d = g := by
  rw [List.getD_eq_getElem?_getD, List.getElem?_set_self h]
  rfl

theorem getD_set_ne {α : Type} {l : List α} {i j : Nat} (g d : α)
    (h : i ≠ j) : (l.set i g).getD j d = l.getD j d := by
  rw [List.getD_eq_getElem?_getD, List.getElem?_set_ne h,
    ← List.getD_eq_getElem?_getD]

theorem getD_range_map {β : Type} {n i : Nat} (f : Nat → β) (d : β)
    (h : i < n) :
    (((List.range n).map f).getD i d) = f i := by
  rw [List.getD_eq_getElem?_getD, List.getElem?_eq_getElem
      (by simpa using h)]
  simp

theorem overwriteList_none_iff {l : List (K × V)} {key : K} {value : V} :
    overwriteList l key value = none ↔ findList l key = none := by
  induction l with
  | nil => simp [overwriteList, findList]
  | cons e rest ih =>
    by_cases he : e.1 = key <;>
      simp [overwriteList, findList, he, Option.map_eq_none', ih]

theorem overwriteList_spec {l l' : List (K × V)} {key : K} {value : V}
    (h : overwriteList l key value = some l') :
    l'.map Prod.fst = l.map Prod.fst ∧
    l'.length = l.length ∧
    findList l' key = some value ∧
    (∀ k', k' ≠ key → findList l' k' = findList l k') ∧
    (∀ e ∈ l', e ∈ l ∨ e = (key, value)) := by
  induction l generalizing l' with
  | nil => simp [overwriteList] at h
  | cons e rest ih =>
    by_cases he : e.1 = key
    · simp only [overwriteList, he, if_pos] at h
      cases h
      subst he
      refine ⟨by simp, by simp, by simp [findList], ?_, ?_⟩
      · intro k' hk'
        have hne : ¬ e.1 = k' := fun hx => hk' hx.symm
        simp [findList, hne]
      · intro f hf
        rcases List.mem_cons.mp hf with rfl | hf'
        · exact Or.inr rfl
        · exact Or.inl (List.mem_cons_of_mem _ hf')
    · rw [overwriteList, if_neg he, Option.map_eq_some'] at h
      obtain ⟨l₀, hl₀, rfl⟩ := h
      obtain ⟨h1, h2, h3, h4, h5⟩ := ih hl₀
      refine ⟨by simp [h1], by simp [h2], ?_, ?_, ?_⟩
      · simpa [findList, he] using h3
      · intro k' hk'
        by_cases hek : e.1 = k' <;> simp [findList, hek, h4 k' hk']
      · intro f hf
        rcases List.mem_cons.mp hf with rfl | hf'
        · exact Or.inl (List.mem_cons_self _ _)
        · rcases h5 f hf' with hin | heq
          · exact Or.inl (List.mem_cons_of_mem _ hin)
          · exact Or.inr heq

theorem bAt_store_set_self (s : Table K V) (i : Nat) (g : Bucket K V)
    (h : s.dir_.getD i 0 < s.store.length) :
    bAt { s with store := s.store.set (s.dir_.getD i 0) g } i = g := by
  simp only [bAt]
  exact getD_set_self _ _ h

theorem bAt_store_set_other (s : Table K V) {i j : Nat} (g : Bucket K V)
    (h : s.dir_.getD j 0 ≠ s.dir_.getD i 0) :
    bAt { s with store := s.store.set (s.dir_.getD i 0) g } j = bAt s j := by
  simp only [bAt]
  exact getD_set_ne _ _ (fun hx => h hx.symm)

/-- C9: inserting an already-present key overwrites its value in place and
performs no split even when the bucket is full: `global_depth_`,
`num_buckets_`, the directory, and the number of heap buckets are all
unchanged; `find` then yields the new value for the key and is unchanged on
every other key. -/
theorem eht_insert_overwrites_in_place {s : Table K V} {key : K}
    {value v₀ : V} (n : Nat) (hfound : Find s key = some v₀) :
    ∃ s', InsertFuel (n + 1) s key value = some s' ∧
      s'.global_depth_ = s.global_depth_ ∧
      s'.num_buckets_ = s.num_buckets_ ∧
      s'.dir_ = s.dir_ ∧
      s'.store.length = s.store.length ∧
      Find s' key = some value ∧
      (∀ k', k' ≠ key → Find s' k' = Find s k') := by
  simp only [Find] at hfound
  by_cases hguard : s.dir_.length ≤ IndexOf s key
  · rw [if_pos hguard] at hfound; cases hfound
  · rw [if_neg hguard] at hfound
    have hbid : s.dir_.getD (IndexOf s key) 0 < s.store.length := by
      by_contra hge
      rw [bAt, getD_oob defaultBucket (Nat.le_of_not_lt hge)] at hfound
      simp [defaultBucket, findList] at hfound
    obtain ⟨l', hl'⟩ :
        ∃ l', overwriteList (bAt s (IndexOf s key)).list_ key value = some l' := by
      cases hov : overwriteList (bAt s (IndexOf s key)).list_ key value with
      | none => rw [overwriteList_none_iff.mp hov] at hfound; cases hfound
      | some l' => exact ⟨l', rfl⟩
    obtain ⟨hmap, hlen, hfind, hother, _hmem⟩ := overwriteList_spec hl'
    refine ⟨{ s with store := s.store.set (s.dir_.getD (IndexOf s key) 0)
                                  ({ bAt s (IndexOf s key) with list_ := l' }) },
      ?_, rfl, rfl, rfl, by simp, ?_, ?_⟩
    · simp only [InsertFuel, Bucket.Insert]
      rw [show s.store.getD (s.dir_.getD (IndexOf s key) 0) defaultBucket
            = bAt s (IndexOf s key) from rfl, hl']
      rfl
    · simp only [Find]
      rw [if_neg (by simpa [IndexOf] using hguard)]
      rw [show IndexOf ({ s with store := s.store.set (s.dir_.getD (IndexOf s key) 0)
                                      ({ bAt s (IndexOf s key) with list_ := l' }) }) key
            = IndexOf s key from rfl]
      rw [bAt_store_set_self s (IndexOf s key) _ hbid]
      exact hfind
    · intro k' hk'
      simp only [Find]
      rw [show IndexOf ({ s with store := s.store.set (s.dir_.getD (IndexOf s key) 0)
                                      ({ bAt s (IndexOf s key) with list_ := l' }) }) k'
            = IndexOf s k' from rfl]
      by_cases hg' : s.dir_.length ≤ IndexOf s k'
      · rw [if_pos (by simpa using hg'), if_pos hg']
      · rw [if_neg (by simpa using hg'), if_neg hg']
        by_cases hsame : s.dir_.getD (IndexOf s k') 0
            = s.dir_.getD (IndexOf s key) 0
        · have hb' : bAt ({ s with store := s.store.set (s.dir_.getD (IndexOf s key) 0)
                                        ({ bAt s (IndexOf s key) with list_ := l' }) })
                (IndexOf s k')
              = { bAt s (IndexOf s key) with list_ := l' } := by
            simp only [bAt, hsame]
            exact getD_set_self _ _ hbid
          have hbb : bAt s (IndexOf s k') = bAt s (IndexOf s key) := by
            simp only [bAt, hsame]
          rw [hb', hbb]
          exact hother k' hk'
        · rw [bAt_store_set_other s _ hsame]

/-- C6: when `Bucket::Insert` fails (bucket full, key absent) and the
bucket's local depth equals the global depth, `Insert` doubles the
directory first: `global_depth_` goes up by exactly 1, the directory length
doubles with new slot `i + old_size` sharing the bucket of slot `i`, and
the retry continues from the doubled state (depth increment on the shared
bucket, then redistribution). -/
theorem eht_directory_doubling {s : Table K V} {key : K} {value : V} (n : Nat)
    (hfail : (Bucket.Insert (bAt s (IndexOf s key)) key value).1 = false)
    (hdepth : (bAt s (IndexOf s key)).depth_ = s.global_depth_) :
    (growDirectory s).global_depth_ = s.global_depth_ + 1 ∧
    (growDirectory s).dir_.length = 2 * s.dir_.length ∧
    (∀ i < s.dir_.length,
      (growDirectory s).dir_.getD (i + s.dir_.length) 0 = s.dir_.getD i 0) ∧
    InsertFuel (n + 1) s key value
      = InsertFuel n
          (RedistributeBucket
            (IncrementDepth (growDirectory s) (s.dir_.getD (IndexOf s key) 0))
            (s.dir_.getD (IndexOf s key) 0)) key value := by
  refine ⟨rfl, by simp [growDirectory, Nat.two_mul], ?_, ?_⟩
  · intro i hi
    simp only [growDirectory]
    rw [List.getD_append_right _ _ _ _ (by omega)]
    congr 1
    omega
  · simp only [InsertFuel]
    rw [show s.store.getD (s.dir_.getD (IndexOf s key) 0) defaultBucket
          = bAt s (IndexOf s key) from rfl, hfail, hdepth]
    simp

end EHT

namespace EHT

variable {K V : Type} [DecidableEq K]

/-- Concrete one-bucket table (capacity 1, identity hash) holding the
entry `(0, 10)`: used as witness input below. -/
def oneEntryTable : Table Nat Nat :=
  { hashFn := fun k => k, global_depth_ := 0, bucket_size_ := 1,
    num_buckets_ := 1,
    store := [{ size_ := 1, depth_ := 0, list_ := [(0, 10)] }],
    dir_ := [0] }

/-- Witness for C9: capacity-1 table holding `(0, 10)`; inserting `(0, 99)`
overwrites in place with no split. -/
theorem eht_insert_overwrites_in_place_witness :
    ∃ s', InsertFuel 1 oneEntryTable 0 99 = some s' ∧
      s'.global_depth_ = oneEntryTable.global_depth_ ∧
      s'.num_buckets_ = oneEntryTable.num_buckets_ ∧
      s'.dir_ = oneEntryTable.dir_ ∧
      s'.store.length = oneEntryTable.store.length ∧
      Find s' 0 = some 99 ∧
      (∀ k', k' ≠ 0 → Find s' k' = Find oneEntryTable k') :=
  eht_insert_overwrites_in_place 0 rfl

/-- Witness for C6: capacity-1 table holding `(0, 10)` at depth 0 = global
depth; inserting key 1 (hash 1) fails the bucket insert and triggers the
doubling. -/
theorem eht_directory_doubling_witness :
    (growDirectory oneEntryTable).global_depth_
        = oneEntryTable.global_depth_ + 1 ∧
    (growDirectory oneEntryTable).dir_.length
        = 2 * oneEntryTable.dir_.length ∧
    (∀ i < oneEntryTable.dir_.length,
      (growDirectory oneEntryTable).dir_.getD (i + oneEntryTable.dir_.length) 0
        = oneEntryTable.dir_.getD i 0) ∧
    InsertFuel 4 oneEntryTable 1 11
      = InsertFuel 3
          (RedistributeBucket
            (IncrementDepth (growDirectory oneEntryTable)
              (oneEntryTable.dir_.getD (IndexOf oneEntryTable 1) 0))
            (oneEntryTable.dir_.getD (IndexOf oneEntryTable 1) 0)) 1 11 :=
  eht_directory_doubling 3 rfl rfl

/-- One split iteration of the stuck collision state: incrementing the
depth of bucket 0 and redistributing it leaves bucket 0 full with `(0, 0)`
and slot 0 still pointing at it (hash 0 has every bit clear). -/
theorem collide_step (t : Table Nat Nat) (d : Nat)
    (hh : t.hashFn = (fun _ => 0)) (hdl : 0 < t.dir_.length)
    (hd0 : t.dir_.getD 0 0 = 0) (hsl : 0 < t.store.length)
    (hb : t.store.getD 0 defaultBucket
      = { size_ := 1, depth_ := d, list_ := [(0, 0)] }) :
    (RedistributeBucket (IncrementDepth t 0) 0).hashFn = (fun _ => 0) ∧
    0 < (RedistributeBucket (IncrementDepth t 0) 0).dir_.length ∧
    (RedistributeBucket (IncrementDepth t 0) 0).dir_.getD 0 0 = 0 ∧
    0 < (RedistributeBucket (IncrementDepth t 0) 0).store.length ∧
    (RedistributeBucket (IncrementDepth t 0) 0).store.getD 0 defaultBucket
      = { size_ := 1, depth_ := d + 1, list_ := [(0, 0)] } := by
  have hb2 : (IncrementDepth t 0).store.getD 0 defaultBucket
      = { size_ := 1, depth_ := d + 1, list_ := [(0, 0)] } := by
    simp only [IncrementDepth, hb]
    exact getD_set_self _ _ (by simpa using hsl)
  have hh2 : (IncrementDepth t 0).hashFn = (fun _ => 0) := hh
  have hsl2 : 0 < (IncrementDepth t 0).store.length := by
    simpa [IncrementDepth] using hsl
  have hdl2 : 0 < (IncrementDepth t 0).dir_.length := hdl
  have hd02 : (IncrementDepth t 0).dir_.getD 0 0 = 0 := hd0
  refine ⟨hh2, ?_, ?_, ?_, ?_⟩
  · simp only [RedistributeBucket]
    simpa using hdl2
  · simp only [RedistributeBucket]
    rw [getD_range_map _ _ (by simpa using hdl2)]
    rw [if_neg (by simp [Nat.zero_testBit])]
    exact hd02
  · simp only [RedistributeBucket]
    simp
  · simp only [RedistributeBucket, hb2, hh2]
    rw [List.getD_append _ _ _ _ (by simpa using hsl2)]
    rw [getD_set_self _ _ (by simpa using hsl2)]
    simp [Nat.zero_testBit]

/-- Any table whose slot-0 bucket has capacity 1 and already holds the
entry `(0, 0)` under the constant-zero hash is stuck: inserting the
distinct key 1 (same hash 0) can never complete, for any fuel — each split
leaves the full bucket at slot 0 unchanged. -/
theorem collide_stuck : ∀ (n : Nat) (s : Table Nat Nat) (d : Nat),
    s.hashFn = (fun _ => 0) → 0 < s.dir_.length → s.dir_.getD 0 0 = 0 →
    0 < s.store.length →
    s.store.getD 0 defaultBucket
      = { size_ := 1, depth_ := d, list_ := [(0, 0)] } →
    InsertFuel n s 1 1 = none := by
  intro n
  induction n with
  | zero => intro s d _ _ _ _ _; rfl
  | succ m ih =>
    intro s d hh hdl hd0 hsl hb
    have hidx : IndexOf s 1 = 0 := by simp [IndexOf, hh]
    have hins : Bucket.Insert
        ({ size_ := 1, depth_ := d, list_ := [(0, 0)] } : Bucket Nat Nat) 1 1
        = (false, { size_ := 1, depth_ := d, list_ := [(0, 0)] }) := rfl
    simp only [InsertFuel, hidx, hd0, hb, hins]
    rw [if_neg (by simp)]
    have hh1 : (if d = s.global_depth_ then growDirectory s else s).hashFn
        = (fun _ => 0) := by
      split <;> simpa [growDirectory] using hh
    have hdl1 : 0 < (if d = s.global_depth_
        then growDirectory s else s).dir_.length := by
      split
      · simp only [growDirectory, List.length_append]
        omega
      · exact hdl
    have hd01 : (if d = s.global_depth_
        then growDirectory s else s).dir_.getD 0 0 = 0 := by
      split
      · simpa [growDirectory] using (List.getD_append _ _ 0 0 hdl).trans hd0
      · exact hd0
    have hsl1 : 0 < (if d = s.global_depth_
        then growDirectory s else s).store.length := by
      split <;> simpa [growDirectory] using hsl
    have hb1 : (if d = s.global_depth_
        then growDirectory s else s).store.getD 0 defaultBucket
        = { size_ := 1, depth_ := d, list_ := [(0, 0)] } := by
      split <;> simpa [growDirectory] using hb
    obtain ⟨c1, c2, c3, c4, c5⟩ :=
      collide_step (if d = s.global_depth_ then growDirectory s else s) d
        hh1 hdl1 hd01 hsl1 hb1
    exact ih _ (d + 1) c1 c2 c3 c4 c5

/-- Concrete stuck table for the C7 counterexample: constant-zero hash,
bucket capacity 1, the single bucket already full with `(0, 0)`. -/
def collideTable : Table Nat Nat :=
  { hashFn := fun _ => 0, global_depth_ := 0, bucket_size_ := 1,
    num_buckets_ := 1,
    store := [{ size_ := 1, depth_ := 0, list_ := [(0, 0)] }],
    dir_ := [0] }

/-- C7 counterexample: from a fresh table with bucket capacity 1 and a
constant hash (total hash collision), `insert(0,0)` completes and yields
`collideTable`; the subsequent `insert(1,1)` (distinct key, identical hash)
never terminates — no amount of splitting frees capacity. -/
theorem eht_c7_counterexample :
    InsertFuel 1 (mkTable (fun _ => 0) 1) 0 0 = some collideTable ∧
    ¬ InsertTerminates collideTable 1 1 := by
  refine ⟨rfl, ?_⟩
  rintro ⟨n, s', hn⟩
  rw [collide_stuck n collideTable 0 rfl (by decide) rfl (by decide) rfl] at hn
  cases hn

end EHT

namespace EHT

variable {K V : Type} [DecidableEq K]

theorem testBit_eq_of_mod_eq {x y m i : Nat} (h : x % 2 ^ m = y % 2 ^ m)
    (hi : i < m) : x.testBit i = y.testBit i := by
  have hx := Nat.testBit_mod_two_pow x m i
  have hy := Nat.testBit_mod_two_pow y m i
  rw [h] at hx
  rw [hx] at hy
  simpa [hi] using hy

theorem mod_two_pow_eq_iff {x y m : Nat} :
    x % 2 ^ m = y % 2 ^ m ↔ ∀ i < m, x.testBit i = y.testBit i := by
  constructor
  · intro h i hi
    exact testBit_eq_of_mod_eq h hi
  · intro h
    apply Nat.eq_of_testBit_eq
    intro i
    rw [Nat.testBit_mod_two_pow, Nat.testBit_mod_two_pow]
    by_cases hi : i < m
    · simp [hi, h i hi]
    · simp [hi]

theorem mod_two_pow_succ_iff {x y m : Nat} :
    x % 2 ^ (m + 1) = y % 2 ^ (m + 1) ↔
      (x % 2 ^ m = y % 2 ^ m ∧ x.testBit m = y.testBit m) := by
  rw [mod_two_pow_eq_iff, mod_two_pow_eq_iff]
  constructor
  · intro h
    exact ⟨fun i hi => h i (by omega), h m (by omega)⟩
  · rintro ⟨h1, h2⟩ i hi
    rcases Nat.lt_or_ge i m with hlt | hge
    · exact h1 i hlt
    · have : i = m := by omega
      subst this
      exact h2

theorem mod_two_pow_mono {x y a b : Nat} (h : a ≤ b)
    (hxy : x % 2 ^ b = y % 2 ^ b) : x % 2 ^ a = y % 2 ^ a := by
  have hx : x % 2 ^ a = x % 2 ^ b % 2 ^ a :=
    (Nat.mod_mod_of_dvd x (Nat.pow_dvd_pow 2 h)).symm
  have hy : y % 2 ^ a = y % 2 ^ b % 2 ^ a :=
    (Nat.mod_mod_of_dvd y (Nat.pow_dvd_pow 2 h)).symm
  rw [hx, hy, hxy]

/-- Well-formedness invariant of a table, maintained by every public
operation: the directory has exactly `2^global_depth_` slots; every slot
holds a valid heap id; local depths are bounded by the global depth; slots
congruent modulo `2^local_depth` share their bucket (and conversely, slots
sharing a bucket are congruent); every entry of a bucket hashes to its
slots' residue; keys are unique per bucket; buckets respect their capacity,
which is uniformly `bucket_size_`. -/
structure WF (s : Table K V) : Prop where
  dlen : s.dir_.length = 2 ^ s.global_depth_
  ids : ∀ i < s.dir_.length, s.dir_.getD i 0 < s.store.length
  depth_le : ∀ i < s.dir_.length, (bAt s i).depth_ ≤ s.global_depth_
  cover : ∀ i < s.dir_.length, ∀ j < s.dir_.length,
    i % 2 ^ (bAt s i).depth_ = j % 2 ^ (bAt s i).depth_ →
    s.dir_.getD i 0 = s.dir_.getD j 0
  sameb : ∀ i < s.dir_.length, ∀ j < s.dir_.length,
    s.dir_.getD i 0 = s.dir_.getD j 0 →
    i % 2 ^ (bAt s i).depth_ = j % 2 ^ (bAt s i).depth_
  routed : ∀ i < s.dir_.length, ∀ e ∈ (bAt s i).list_,
    s.hashFn e.1 % 2 ^ (bAt s i).depth_ = i % 2 ^ (bAt s i).depth_
  nodup : ∀ i < s.dir_.length, ((bAt s i).list_.map Prod.fst).Nodup
  cap : ∀ i < s.dir_.length, (bAt s i).list_.length ≤ (bAt s i).size_
  size_eq : ∀ i < s.dir_.length, (bAt s i).size_ = s.bucket_size_

theorem idx_lt {s : Table K V} (hW : WF s) (key : K) :
    IndexOf s key < s.dir_.length := by
  rw [hW.dlen]
  exact Nat.mod_lt _ (Nat.pos_pow_of_pos _ (by omega))

theorem find_char {s : Table K V} (hW : WF s) (key : K) :
    Find s key = findList (bAt s (IndexOf s key)).list_ key := by
  simp only [Find]
  rw [if_neg (Nat.not_le.mpr (idx_lt hW key))]

theorem bAt_set (s : Table K V) (c : Nat) (g : Bucket K V)
    (hc : c < s.store.length) (i : Nat) :
    bAt ({ s with store := s.store.set c g }) i
      = if s.dir_.getD i 0 = c then g else bAt s i := by
  by_cases h : s.dir_.getD i 0 = c
  · rw [if_pos h]
    simp only [bAt, h]
    exact getD_set_self _ _ hc
  · rw [if_neg h]
    simp only [bAt]
    exact getD_set_ne _ _ (fun hx => h hx.symm)

theorem WF_mkTable (hash : K → Nat) (sz : Nat) :
    WF (mkTable (K := K) (V := V) hash sz) := by
  refine ⟨rfl, ?_, ?_, ?_, ?_, ?_, ?_, ?_, ?_⟩
  · intro i hi
    obtain rfl : i = 0 := by simpa [mkTable] using hi
    simp [mkTable]
  · intro i hi
    obtain rfl : i = 0 := by simpa [mkTable] using hi
    simp [mkTable, bAt, defaultBucket]
  · intro i hi j hj h
    obtain rfl : i = 0 := by simpa [mkTable] using hi
    obtain rfl : j = 0 := by simpa [mkTable] using hj
    rfl
  · intro i hi j hj h
    obtain rfl : i = 0 := by simpa [mkTable] using hi
    obtain rfl : j = 0 := by simpa [mkTable] using hj
    rfl
  · intro i hi e he
    obtain rfl : i = 0 := by simpa [mkTable] using hi
    simp [mkTable, bAt, defaultBucket] at he
  · intro i hi
    obtain rfl : i = 0 := by simpa [mkTable] using hi
    simp [mkTable, bAt, defaultBucket]
  · intro i hi
    obtain rfl : i = 0 := by simpa [mkTable] using hi
    simp [mkTable, bAt, defaultBucket]
  · intro i hi
    obtain rfl : i = 0 := by simpa [mkTable] using hi
    simp [mkTable, bAt, defaultBucket]

end EHT

namespace EHT

variable {K V : Type} [DecidableEq K]

theorem findList_none_iff {l : List (K × V)} {key : K} :
    findList l key = none ↔ ∀ e ∈ l, e.1 ≠ key := by
  induction l with
  | nil => simp [findList]
  | cons e rest ih =>
    by_cases he : e.1 = key <;> simp [findList, he, ih]

theorem findList_eq_some_iff {l : List (K × V)} {key : K} {v : V}
    (hnd : (l.map Prod.fst).Nodup) :
    findList l key = some v ↔ (key, v) ∈ l := by
  induction l with
  | nil => simp [findList]
  | cons e rest ih =>
    simp only [List.map_cons, List.nodup_cons] at hnd
    by_cases he : e.1 = key
    · subst he
      simp only [findList, if_pos rfl]
      constructor
      · rintro h
        cases h
        exact List.mem_cons_self _ _
      · intro h
        rcases List.mem_cons.mp h with h1 | h1
        · exact congrArg some (congrArg Prod.snd h1.symm)
        · exact absurd (List.mem_map_of_mem Prod.fst h1) (by simpa using hnd.1)
    · simp only [findList]
      rw [if_neg he, ih hnd.2]
      constructor
      · exact fun h => List.mem_cons_of_mem _ h
      · intro h
        rcases List.mem_cons.mp h with h1 | h1
        · cases h1; exact absurd rfl he
        · exact h1

theorem removeList_sublist (l : List (K × V)) (key : K) :
    (removeList l key).2.Sublist l := by
  induction l with
  | nil => simp [removeList]
  | cons e rest ih =>
    by_cases he : e.1 = key
    · simp only [removeList, he, if_pos]
      exact List.sublist_cons_self _ _
    · simp only [removeList, he, if_neg, Bool.false_eq_true]
      exact List.Sublist.cons₂ _ ih

theorem removeList_find_self {l : List (K × V)} {key : K}
    (hnd : (l.map Prod.fst).Nodup) :
    findList (removeList l key).2 key = none := by
  induction l with
  | nil => simp [removeList, findList]
  | cons e rest ih =>
    simp only [List.map_cons, List.nodup_cons] at hnd
    by_cases he : e.1 = key
    · simp only [removeList, he, if_pos]
      rw [findList_none_iff]
      intro f hf hfk
      subst he
      exact hnd.1 (by simpa [← hfk] using List.mem_map_of_mem Prod.fst hf)
    · simp only [removeList, he, if_neg, Bool.false_eq_true]
      simp only [findList]
      rw [if_neg he]
      exact ih hnd.2

theorem removeList_find_other {l : List (K × V)} {key k' : K}
    (hne : k' ≠ key) :
    findList (removeList l key).2 k' = findList l k' := by
  induction l with
  | nil => simp [removeList]
  | cons e rest ih =>
    by_cases he : e.1 = key
    · simp only [removeList, he, if_pos]
      simp only [findList]
      rw [if_neg (by rw [he]; exact fun h => hne h.symm)]
    · simp only [removeList, he, if_neg, Bool.false_eq_true]
      by_cases hek : e.1 = k' <;> simp [findList, hek, ih]

theorem key_unique {s : Table K V} (hW : WF s) {i : Nat}
    (hi : i < s.dir_.length) {e : K × V} (he : e ∈ (bAt s i).list_) :
    s.dir_.getD (IndexOf s e.1) 0 = s.dir_.getD i 0 := by
  have hidx := idx_lt hW e.1
  have hr := hW.routed i hi e he
  have hd := hW.depth_le i hi
  have h1 : IndexOf s e.1 % 2 ^ (bAt s i).depth_
      = s.hashFn e.1 % 2 ^ (bAt s i).depth_ := by
    simp only [IndexOf]
    exact Nat.mod_mod_of_dvd _ (Nat.pow_dvd_pow 2 hd)
  exact (hW.cover i hi (IndexOf s e.1) hidx ((h1.trans hr).symm)).symm

end EHT

namespace EHT

variable {K V : Type} [DecidableEq K]

theorem bAt_eq_of_dir_eq {s : Table K V} {i j : Nat}
    (h : s.dir_.getD i 0 = s.dir_.getD j 0) : bAt s i = bAt s j := by
  simp only [bAt, h]

/-- Replacing the bucket at the slot `idx` by a bucket of the same capacity
and depth whose entries either come from the old bucket or hash to the
slot's residue preserves well-formedness. -/
theorem WF_update_bucket {s : Table K V} (hW : WF s) {idx : Nat}
    (hidx : idx < s.dir_.length) (g : Bucket K V)
    (hsize : g.size_ = (bAt s idx).size_)
    (hdepth : g.depth_ = (bAt s idx).depth_)
    (hlen : g.list_.length ≤ (bAt s idx).size_)
    (hnd : (g.list_.map Prod.fst).Nodup)
    (hmem : ∀ e ∈ g.list_, e ∈ (bAt s idx).list_ ∨
      s.hashFn e.1 % 2 ^ (bAt s idx).depth_ = idx % 2 ^ (bAt s idx).depth_) :
    WF ({ s with store := s.store.set (s.dir_.getD idx 0) g }) := by
  have hbid : s.dir_.getD idx 0 < s.store.length := hW.ids idx hidx
  have hbAt : ∀ i, bAt ({ s with store := s.store.set (s.dir_.getD idx 0) g }) i
      = if s.dir_.getD i 0 = s.dir_.getD idx 0 then g else bAt s i :=
    fun i => bAt_set s _ g hbid i
  have hdeq : ∀ i, (bAt ({ s with store := s.store.set (s.dir_.getD idx 0) g }) i).depth_
      = (bAt s i).depth_ := by
    intro i
    rw [hbAt i]
    split
    · rename_i h
      rw [hdepth, bAt_eq_of_dir_eq h]
    · rfl
  refine ⟨hW.dlen, ?_, ?_, ?_, ?_, ?_, ?_, ?_, ?_⟩
  · intro i hi
    simp only [List.length_set]
    exact hW.ids i hi
  · intro i hi
    rw [hdeq i]
    exact hW.depth_le i hi
  · intro i hi j hj h
    rw [hdeq i] at h
    exact hW.cover i hi j hj h
  · intro i hi j hj h
    rw [hdeq i]
    exact hW.sameb i hi j hj h
  · intro i hi e he
    rw [hdeq i]
    rw [hbAt i] at he
    by_cases hd : s.dir_.getD i 0 = s.dir_.getD idx 0
    · rw [if_pos hd] at he
      rcases hmem e he with hold | hnew
      · have : e ∈ (bAt s i).list_ := by
          rw [bAt_eq_of_dir_eq hd]
          exact hold
        exact hW.routed i hi e this
      · have hsb := hW.sameb idx hidx i hi hd.symm
        have hbi : bAt s i = bAt s idx := bAt_eq_of_dir_eq hd
        rw [hbi]
        exact hnew.trans hsb
    · rw [if_neg hd] at he
      exact hW.routed i hi e he
  · intro i hi
    rw [hbAt i]
    split
    · exact hnd
    · exact hW.nodup i hi
  · intro i hi
    rw [hbAt i]
    split
    · rw [hsize]
      exact hlen
    · exact hW.cap i hi
  · intro i hi
    rw [hbAt i]
    split
    · rw [hsize]
      exact hW.size_eq idx hidx
    · exact hW.size_eq i hi

/-- Behaviour and invariant preservation of `Remove`: under `WF`, the guard
never fires, the key is gone afterwards, every other key is untouched, and
the scalar fields are unchanged. -/
theorem remove_spec {s : Table K V} (hW : WF s) (key : K) :
    WF (Remove s key).2 ∧
    (Remove s key).2.global_depth_ = s.global_depth_ ∧
    (Remove s key).2.dir_ = s.dir_ ∧
    (Remove s key).2.hashFn = s.hashFn ∧
    (Remove s key).2.bucket_size_ = s.bucket_size_ ∧
    Find (Remove s key).2 key = none ∧
    (∀ k', k' ≠ key → Find (Remove s key).2 k' = Find s k') := by
  have hidx := idx_lt hW key
  have hbid : s.dir_.getD (IndexOf s key) 0 < s.store.length :=
    hW.ids _ hidx
  have hR : (Remove s key).2
      = { s with
          store := s.store.set (s.dir_.getD (IndexOf s key) 0)
                     ({ bAt s (IndexOf s key) with
                         list_ := (removeList (bAt s (IndexOf s key)).list_ key).2 }) } := by
    simp only [Remove]
    rw [if_neg (Nat.not_le.mpr hidx)]
    rfl
  have hsub := removeList_sublist (bAt s (IndexOf s key)).list_ key
  have hW' : WF (Remove s key).2 := by
    rw [hR]
    exact WF_update_bucket hW hidx _ rfl rfl
      (le_trans (hsub.length_le) (hW.cap _ hidx))
      ((hsub.map Prod.fst).nodup (hW.nodup _ hidx))
      (fun e he => Or.inl (hsub.subset he))
  refine ⟨hW', by rw [hR], by rw [hR], by rw [hR], by rw [hR], ?_, ?_⟩
  · rw [find_char hW' key]
    have hIdx' : IndexOf (Remove s key).2 key = IndexOf s key := by
      rw [hR]
      rfl
    rw [hIdx']
    have : bAt (Remove s key).2 (IndexOf s key)
        = { bAt s (IndexOf s key) with
            list_ := (removeList (bAt s (IndexOf s key)).list_ key).2 } := by
      rw [hR]
      rw [bAt_set s _ _ hbid]
      rw [if_pos rfl]
    rw [this]
    exact removeList_find_self (hW.nodup _ hidx)
  · intro k' hk'
    rw [find_char hW' k', find_char hW k']
    have hIdx' : IndexOf (Remove s key).2 k' = IndexOf s k' := by
      rw [hR]
      rfl
    rw [hIdx', hR, bAt_set s _ _ hbid]
    by_cases hd : s.dir_.getD (IndexOf s k') 0
        = s.dir_.getD (IndexOf s key) 0
    · rw [if_pos hd]
      have hbi : bAt s (IndexOf s k') = bAt s (IndexOf s key) :=
        bAt_eq_of_dir_eq hd
      rw [hbi]
      exact removeList_find_other hk'
    · rw [if_neg hd]

end EHT

namespace EHT

variable {K V : Type} [DecidableEq K]

theorem findList_append (l₁ l₂ : List (K × V)) (k : K) :
    findList (l₁ ++ l₂) k
      = match findList l₁ k with
        | some v => some v
        | none => findList l₂ k := by
  induction l₁ with
  | nil => simp [findList]
  | cons e rest ih =>
    by_cases he : e.1 = k <;> simp [findList, he, ih]

theorem bucketInsert_true_spec {b b' : Bucket K V} {key : K} {value : V}
    (h : Bucket.Insert b key value = (true, b')) :
    b'.size_ = b.size_ ∧ b'.depth_ = b.depth_ ∧
    findList b'.list_ key = some value ∧
    (∀ k', k' ≠ key → findList b'.list_ k' = findList b.list_ k') ∧
    (∀ e ∈ b'.list_, e ∈ b.list_ ∨ e = (key, value)) ∧
    ((b.list_.map Prod.fst).Nodup → (b'.list_.map Prod.fst).Nodup) ∧
    (b.list_.length ≤ b.size_ → b'.list_.length ≤ b.size_) := by
  unfold Bucket.Insert at h
  cases hov : overwriteList b.list_ key value with
  | some l =>
    rw [hov] at h
    simp only [Prod.mk.injEq] at h
    obtain ⟨-, rfl⟩ := h
    obtain ⟨hmap, hlen, hfind, hother, hmem⟩ := overwriteList_spec hov
    refine ⟨rfl, rfl, hfind, hother, hmem, ?_, ?_⟩
    · intro hnd
      rw [show ({ b with list_ := l } : Bucket K V).list_ = l from rfl, hmap]
      exact hnd
    · intro hc
      rw [show ({ b with list_ := l } : Bucket K V).list_ = l from rfl, hlen]
      exact hc
  | none =>
    rw [hov] at h
    split at h
    · rename_i heq
      exact Option.noConfusion heq
    · split at h
      · simp at h
      · rename_i hfull
        simp only [Prod.mk.injEq] at h
        obtain ⟨-, rfl⟩ := h
        have hnone : findList b.list_ key = none := overwriteList_none_iff.mp hov
        have hnotmem : key ∉ b.list_.map Prod.fst := by
          intro hmem
          obtain ⟨e, he, hek⟩ := List.mem_map.mp hmem
          exact (findList_none_iff.mp hnone e he) hek
        refine ⟨rfl, rfl, ?_, ?_, ?_, ?_, ?_⟩
        · rw [show ({ b with list_ := b.list_ ++ [(key, value)] } : Bucket K V).list_
                = b.list_ ++ [(key, value)] from rfl]
          rw [findList_append, hnone]
          simp [findList]
        · intro k' hk'
          rw [show ({ b with list_ := b.list_ ++ [(key, value)] } : Bucket K V).list_
                = b.list_ ++ [(key, value)] from rfl]
          rw [findList_append]
          cases hf : findList b.list_ k'
          · simp [findList, Ne.symm hk']
          · rfl
        · intro e he
          rcases List.mem_append.mp he with h1 | h1
          · exact Or.inl h1
          · simp at h1
            exact Or.inr (by rw [h1])
        · intro hnd
          rw [show ({ b with list_ := b.list_ ++ [(key, value)] } : Bucket K V).list_
                = b.list_ ++ [(key, value)] from rfl]
          rw [List.map_append]
          simp only [List.map_cons, List.map_nil]
          rw [List.nodup_append]
          refine ⟨hnd, List.nodup_singleton _, ?_⟩
          intro a ha hb
          simp at hb
          subst hb
          exact hnotmem ha
        · intro _
          have hlt : b.list_.length < b.size_ := by
            by_contra hge
            exact hfull (by simpa [Bucket.IsFull] using Nat.le_of_not_lt hge)
          simpa using hlt

/-- One successful `Bucket::Insert` step of the table-level `Insert`:
the state is updated at the target bucket only, well-formedness is kept,
the key reads back the new value, and all other keys are untouched. -/
theorem insert_success_spec {s : Table K V} (hW : WF s) {key : K} {value : V}
    {b' : Bucket K V}
    (h : Bucket.Insert (bAt s (IndexOf s key)) key value = (true, b'))
    (n : Nat) :
    InsertFuel (n + 1) s key value
      = some ({ s with store := s.store.set (s.dir_.getD (IndexOf s key) 0) b' }) ∧
    WF ({ s with store := s.store.set (s.dir_.getD (IndexOf s key) 0) b' }) ∧
    Find ({ s with store := s.store.set (s.dir_.getD (IndexOf s key) 0) b' }) key
      = some value ∧
    (∀ k', k' ≠ key →
      Find ({ s with store := s.store.set (s.dir_.getD (IndexOf s key) 0) b' }) k'
        = Find s k') := by
  have hidx := idx_lt hW key
  have hbid : s.dir_.getD (IndexOf s key) 0 < s.store.length := hW.ids _ hidx
  obtain ⟨hsize, hdepth, hfind, hother, hmem, hnd, hcap⟩ := bucketInsert_true_spec h
  have hWnew :
      WF ({ s with store := s.store.set (s.dir_.getD (IndexOf s key) 0) b' }) := by
    refine WF_update_bucket hW hidx b' hsize hdepth
      (hsize ▸ hcap (hW.cap _ hidx)) (hnd (hW.nodup _ hidx)) ?_
    intro e he
    rcases hmem e he with h1 | h1
    · exact Or.inl h1
    · refine Or.inr ?_
      rw [h1]
      have hd := hW.depth_le _ hidx
      simp only [IndexOf]
      exact (Nat.mod_mod_of_dvd _ (Nat.pow_dvd_pow 2 hd)).symm ▸
        (Nat.mod_mod_of_dvd (s.hashFn key) (Nat.pow_dvd_pow 2 hd)).symm
  refine ⟨?_, hWnew, ?_, ?_⟩
  · simp only [InsertFuel]
    rw [show s.store.getD (s.dir_.getD (IndexOf s key) 0) defaultBucket
          = bAt s (IndexOf s key) from rfl, h]
    rfl
  · rw [find_char hWnew key]
    have hb :
        bAt ({ s with store := s.store.set (s.dir_.getD (IndexOf s key) 0) b' })
          (IndexOf s key) = b' := by
      rw [bAt_set s _ _ hbid, if_pos rfl]
    rw [show IndexOf ({ s with store := s.store.set (s.dir_.getD (IndexOf s key) 0) b' })
          key = IndexOf s key from rfl, hb]
    exact hfind
  · intro k' hk'
    rw [find_char hWnew k', find_char hW k']
    rw [show IndexOf ({ s with store := s.store.set (s.dir_.getD (IndexOf s key) 0) b' })
          k' = IndexOf s k' from rfl]
    rw [bAt_set s _ _ hbid]
    by_cases hd : s.dir_.getD (IndexOf s k') 0 = s.dir_.getD (IndexOf s key) 0
    · rw [if_pos hd, bAt_eq_of_dir_eq hd]
      exact hother k' hk'
    · rw [if_neg hd]

end EHT

namespace EHT

variable {K V : Type} [DecidableEq K]

theorem getD_append_self {l : List Nat} {i : Nat} (hl : 0 < l.length)
    (hi : i < 2 * l.length) :
    (l ++ l).getD i 0 = l.getD (i % l.length) 0 := by
  rcases Nat.lt_or_ge i l.length with h | h
  · rw [List.getD_append _ _ _ _ h, Nat.mod_eq_of_lt h]
  · rw [List.getD_append_right _ _ _ _ h]
    rw [Nat.mod_eq_sub_mod h, Nat.mod_eq_of_lt (by omega)]

theorem grow_spec {s : Table K V} (hW : WF s) :
    WF (growDirectory s) ∧
    (∀ k', Find (growDirectory s) k' = Find s k') ∧
    (∀ key, (growDirectory s).dir_.getD (IndexOf (growDirectory s) key) 0
      = s.dir_.getD (IndexOf s key) 0) ∧
    (∀ key, bAt (growDirectory s) (IndexOf (growDirectory s) key)
      = bAt s (IndexOf s key)) := by
  have hL : 0 < s.dir_.length := by
    rw [hW.dlen]
    exact Nat.pos_pow_of_pos _ (by omega)
  have hlen2 : (growDirectory s).dir_.length = 2 * s.dir_.length := by
    simp [growDirectory, Nat.two_mul]
  have hgetD : ∀ i < 2 * s.dir_.length,
      (growDirectory s).dir_.getD i 0 = s.dir_.getD (i % s.dir_.length) 0 := by
    intro i hi
    simp only [growDirectory]
    exact getD_append_self hL hi
  have hmodlt : ∀ i, i % s.dir_.length < s.dir_.length :=
    fun i => Nat.mod_lt _ hL
  have hbg : ∀ i < 2 * s.dir_.length,
      bAt (growDirectory s) i = bAt s (i % s.dir_.length) := by
    intro i hi
    simp only [bAt, hgetD i hi]
    rfl
  have hmod : ∀ (i : Nat) (d : Nat), d ≤ s.global_depth_ →
      (i % s.dir_.length) % 2 ^ d = i % 2 ^ d := by
    intro i d hd
    rw [hW.dlen]
    exact Nat.mod_mod_of_dvd _ (Nat.pow_dvd_pow 2 hd)
  have hWg : WF (growDirectory s) := by
    refine ⟨?_, ?_, ?_, ?_, ?_, ?_, ?_, ?_, ?_⟩
    · rw [hlen2, hW.dlen]
      simp [growDirectory, Nat.pow_succ, Nat.mul_comm]
    · intro i hi
      rw [hlen2] at hi
      rw [hgetD i hi]
      simpa [growDirectory] using hW.ids _ (hmodlt i)
    · intro i hi
      rw [hlen2] at hi
      rw [hbg i hi]
      calc (bAt s (i % s.dir_.length)).depth_ ≤ s.global_depth_ :=
            hW.depth_le _ (hmodlt i)
        _ ≤ (growDirectory s).global_depth_ := by simp [growDirectory]
    · intro i hi j hj h
      rw [hlen2] at hi hj
      rw [hgetD i hi, hgetD j hj]
      rw [hbg i hi] at h
      refine hW.cover _ (hmodlt i) _ (hmodlt j) ?_
      rw [hmod i _ (hW.depth_le _ (hmodlt i)),
        hmod j _ (hW.depth_le _ (hmodlt i))]
      exact h
    · intro i hi j hj h
      rw [hlen2] at hi hj
      rw [hgetD i hi, hgetD j hj] at h
      rw [hbg i hi]
      have := hW.sameb _ (hmodlt i) _ (hmodlt j) h
      rw [hmod i _ (hW.depth_le _ (hmodlt i)),
        hmod j _ (hW.depth_le _ (hmodlt i))] at this
      exact this
    · intro i hi e he
      rw [hlen2] at hi
      rw [hbg i hi] at he ⊢
      have := hW.routed _ (hmodlt i) e he
      rw [show (growDirectory s).hashFn = s.hashFn from rfl]
      rw [hmod i _ (hW.depth_le _ (hmodlt i))] at this
      exact this
    · intro i hi
      rw [hlen2] at hi
      rw [hbg i hi]
      exact hW.nodup _ (hmodlt i)
    · intro i hi
      rw [hlen2] at hi
      rw [hbg i hi]
      exact hW.cap _ (hmodlt i)
    · intro i hi
      rw [hlen2] at hi
      rw [hbg i hi]
      rw [show (growDirectory s).bucket_size_ = s.bucket_size_ from rfl]
      exact hW.size_eq _ (hmodlt i)
  have hidxg : ∀ key : K, IndexOf (growDirectory s) key < 2 * s.dir_.length := by
    intro key
    have := idx_lt hWg key
    rwa [hlen2] at this
  have hidxmod : ∀ key : K,
      IndexOf (growDirectory s) key % s.dir_.length = IndexOf s key := by
    intro key
    simp only [IndexOf, growDirectory]
    rw [hW.dlen]
    exact Nat.mod_mod_of_dvd _ (Nat.pow_dvd_pow 2 (Nat.le_succ _))
  refine ⟨hWg, ?_, ?_, ?_⟩
  · intro k'
    rw [find_char hWg k', find_char hW k']
    rw [hbg _ (hidxg k'), hidxmod k']
  · intro key
    rw [hgetD _ (hidxg key), hidxmod key]
  · intro key
    rw [hbg _ (hidxg key), hidxmod key]

end EHT

namespace EHT

variable {K V : Type} [DecidableEq K]

/-- The split portion of one `Insert` retry iteration: increment the target
bucket's local depth, then redistribute it (the directory has already been
doubled if it had to be). -/
def splitStep (s : Table K V) (key : K) : Table K V :=
  RedistributeBucket (IncrementDepth s (s.dir_.getD (IndexOf s key) 0))
    (s.dir_.getD (IndexOf s key) 0)

theorem splitStep_eq {s : Table K V} {key : K}
    (hbid : s.dir_.getD (IndexOf s key) 0 < s.store.length) :
    splitStep s key
      = { s with
          store := (s.store.set (s.dir_.getD (IndexOf s key) 0)
                      ({ size_ := (bAt s (IndexOf s key)).size_,
                         depth_ := (bAt s (IndexOf s key)).depth_ + 1,
                         list_ := (bAt s (IndexOf s key)).list_.filter
                           (fun e => !(s.hashFn e.1).testBit
                             (bAt s (IndexOf s key)).depth_) }))
                   ++ [{ size_ := (bAt s (IndexOf s key)).size_,
                         depth_ := (bAt s (IndexOf s key)).depth_ + 1,
                         list_ := (bAt s (IndexOf s key)).list_.filter
                           (fun e => (s.hashFn e.1).testBit
                             (bAt s (IndexOf s key)).depth_) }],
          dir_ := (List.range s.dir_.length).map (fun i =>
            if s.dir_.getD i 0 = s.dir_.getD (IndexOf s key) 0 ∧
                i.testBit (bAt s (IndexOf s key)).depth_
            then s.store.length else s.dir_.getD i 0),
          num_buckets_ := s.num_buckets_ + 1 } := by
  simp only [splitStep, RedistributeBucket, IncrementDepth]
  rw [getD_set_self _ defaultBucket hbid]
  rw [List.set_set, List.length_set]
  rfl

end EHT

namespace EHT

variable {K V : Type} [DecidableEq K]

theorem split_spec {s : Table K V} (hW : WF s) (key : K)
    (hlt : (bAt s (IndexOf s key)).depth_ < s.global_depth_) :
    WF (splitStep s key) ∧
    (∀ k', Find (splitStep s key) k' = Find s k') ∧
    (splitStep s key).global_depth_ = s.global_depth_ ∧
    (splitStep s key).hashFn = s.hashFn ∧
    (splitStep s key).bucket_size_ = s.bucket_size_ ∧
    (bAt (splitStep s key) (IndexOf (splitStep s key) key)).depth_
      = (bAt s (IndexOf s key)).depth_ + 1 ∧
    (bAt (splitStep s key) (IndexOf (splitStep s key) key)).list_.Sublist
      (bAt s (IndexOf s key)).list_ := by
  have hidx : IndexOf s key < s.dir_.length := idx_lt hW key
  have hbid : s.dir_.getD (IndexOf s key) 0 < s.store.length := hW.ids _ hidx
  have hs3 := splitStep_eq hbid
  have hgd3 : (splitStep s key).global_depth_ = s.global_depth_ := by rw [hs3]
  have hhash3 : (splitStep s key).hashFn = s.hashFn := by rw [hs3]
  have hbsz3 : (splitStep s key).bucket_size_ = s.bucket_size_ := by rw [hs3]
  have hlen3 : (splitStep s key).dir_.length = s.dir_.length := by
    rw [hs3]; simp
  have hslen3 : (splitStep s key).store.length = s.store.length + 1 := by
    rw [hs3]; simp
  have hidx3 : ∀ k' : K, IndexOf (splitStep s key) k' = IndexOf s k' := by
    intro k'; rw [hs3]; rfl
  have hdir3 : ∀ i < s.dir_.length, (splitStep s key).dir_.getD i 0
      = if s.dir_.getD i 0 = s.dir_.getD (IndexOf s key) 0 ∧
            i.testBit (bAt s (IndexOf s key)).depth_
        then s.store.length else s.dir_.getD i 0 := by
    intro i hi
    rw [hs3]
    exact getD_range_map _ _ hi
  have hbb : ∀ i, s.dir_.getD i 0 = s.dir_.getD (IndexOf s key) 0 →
      bAt s i = bAt s (IndexOf s key) := fun i h => bAt_eq_of_dir_eq h
  have hstore3bid : (splitStep s key).store.getD
      (s.dir_.getD (IndexOf s key) 0) defaultBucket
      = { size_ := (bAt s (IndexOf s key)).size_,
          depth_ := (bAt s (IndexOf s key)).depth_ + 1,
          list_ := (bAt s (IndexOf s key)).list_.filter
            (fun e => !(s.hashFn e.1).testBit (bAt s (IndexOf s key)).depth_) } := by
    rw [hs3]
    dsimp only
    rw [List.getD_append _ _ _ _ (by simpa using hbid)]
    exact getD_set_self _ _ hbid
  have hstore3sib : (splitStep s key).store.getD s.store.length defaultBucket
      = { size_ := (bAt s (IndexOf s key)).size_,
          depth_ := (bAt s (IndexOf s key)).depth_ + 1,
          list_ := (bAt s (IndexOf s key)).list_.filter
            (fun e => (s.hashFn e.1).testBit (bAt s (IndexOf s key)).depth_) } := by
    rw [hs3]
    dsimp only
    rw [List.getD_append_right _ _ _ _ (by simp)]
    simp
  have hstore3other : ∀ c, c < s.store.length →
      c ≠ s.dir_.getD (IndexOf s key) 0 →
      (splitStep s key).store.getD c defaultBucket
        = s.store.getD c defaultBucket := by
    intro c hc hne
    rw [hs3]
    dsimp only
    rw [List.getD_append _ _ _ _ (by simpa using hc)]
    exact getD_set_ne _ _ (fun hx => hne hx.symm)
  have hbAt3 : ∀ i < s.dir_.length, bAt (splitStep s key) i
      = if s.dir_.getD i 0 = s.dir_.getD (IndexOf s key) 0 then
          (if i.testBit (bAt s (IndexOf s key)).depth_ then
            { size_ := (bAt s (IndexOf s key)).size_,
              depth_ := (bAt s (IndexOf s key)).depth_ + 1,
              list_ := (bAt s (IndexOf s key)).list_.filter
                (fun e => (s.hashFn e.1).testBit (bAt s (IndexOf s key)).depth_) }
          else
            { size_ := (bAt s (IndexOf s key)).size_,
              depth_ := (bAt s (IndexOf s key)).depth_ + 1,
              list_ := (bAt s (IndexOf s key)).list_.filter
                (fun e => !(s.hashFn e.1).testBit (bAt s (IndexOf s key)).depth_) })
        else bAt s i := by
    intro i hi
    by_cases hd : s.dir_.getD i 0 = s.dir_.getD (IndexOf s key) 0
    · rw [if_pos hd]
      by_cases hbit : i.testBit (bAt s (IndexOf s key)).depth_ = true
      · rw [if_pos hbit]
        simp only [bAt]
        rw [hdir3 i hi, if_pos (And.intro hd hbit)]
        exact hstore3sib
      · rw [if_neg hbit]
        simp only [bAt]
        rw [hdir3 i hi, if_neg (fun hc => hbit hc.2), hd]
        exact hstore3bid
    · rw [if_neg hd]
      have hdi : s.dir_.getD i 0 < s.store.length := hW.ids i hi
      simp only [bAt]
      rw [hdir3 i hi, if_neg (fun hc => hd hc.1)]
      exact hstore3other _ hdi hd
  have hdep3 : ∀ i < s.dir_.length, (bAt (splitStep s key) i).depth_
      = if s.dir_.getD i 0 = s.dir_.getD (IndexOf s key) 0
        then (bAt s (IndexOf s key)).depth_ + 1 else (bAt s i).depth_ := by
    intro i hi
    rw [hbAt3 i hi]
    by_cases hd : s.dir_.getD i 0 = s.dir_.getD (IndexOf s key) 0
    · rw [if_pos hd, if_pos hd]
      split <;> rfl
    · rw [if_neg hd, if_neg hd]
  have hWs : WF (splitStep s key) := by
    refine ⟨?_, ?_, ?_, ?_, ?_, ?_, ?_, ?_, ?_⟩
    · rw [hlen3, hgd3, hW.dlen]
    · intro i hi
      rw [hlen3] at hi
      rw [hdir3 i hi, hslen3]
      split
      · omega
      · exact Nat.lt_succ_of_lt (hW.ids i hi)
    · intro i hi
      rw [hlen3] at hi
      rw [hdep3 i hi, hgd3]
      split
      · omega
      · exact hW.depth_le i hi
    · intro i hi j hj h
      rw [hlen3] at hi hj
      rw [hdep3 i hi] at h
      rw [hdir3 i hi, hdir3 j hj]
      by_cases hdi : s.dir_.getD i 0 = s.dir_.getD (IndexOf s key) 0
      · rw [if_pos hdi] at h
        obtain ⟨hm, hb⟩ := mod_two_pow_succ_iff.mp h
        have hdepi : (bAt s i).depth_ = (bAt s (IndexOf s key)).depth_ := by
          rw [hbb i hdi]
        have hdj : s.dir_.getD j 0 = s.dir_.getD i 0 :=
          (hW.cover i hi j hj (by rw [hdepi]; exact hm)).symm
        have hdj' : s.dir_.getD j 0 = s.dir_.getD (IndexOf s key) 0 :=
          hdj.trans hdi
        by_cases hbi : i.testBit (bAt s (IndexOf s key)).depth_ = true
        · rw [if_pos (And.intro hdi hbi),
            if_pos (And.intro hdj' (by rw [← hb]; exact hbi))]
        · rw [if_neg (fun hc => hbi hc.2),
            if_neg (fun hc => hbi (by rw [hb]; exact hc.2))]
          exact hdj.symm
      · rw [if_neg hdi] at h
        have hdj : s.dir_.getD j 0 = s.dir_.getD i 0 :=
          (hW.cover i hi j hj h).symm
        have hdjn : ¬ s.dir_.getD j 0 = s.dir_.getD (IndexOf s key) 0 :=
          fun hc => hdi (hdj.symm.trans hc)
        rw [if_neg (fun hc => hdi hc.1), if_neg (fun hc => hdjn hc.1)]
        exact hdj.symm
    · intro i hi j hj h3
      rw [hlen3] at hi hj
      rw [hdir3 i hi, hdir3 j hj] at h3
      rw [hdep3 i hi]
      by_cases hdi : s.dir_.getD i 0 = s.dir_.getD (IndexOf s key) 0
      · rw [if_pos hdi]
        by_cases hdj : s.dir_.getD j 0 = s.dir_.getD (IndexOf s key) 0
        · have hmod : i % 2 ^ (bAt s (IndexOf s key)).depth_
              = j % 2 ^ (bAt s (IndexOf s key)).depth_ := by
            have hsb := hW.sameb i hi j hj (hdi.trans hdj.symm)
            rwa [show (bAt s i).depth_ = (bAt s (IndexOf s key)).depth_ from
              by rw [hbb i hdi]] at hsb
          have hbits : i.testBit (bAt s (IndexOf s key)).depth_
              = j.testBit (bAt s (IndexOf s key)).depth_ := by
            by_cases hbi : i.testBit (bAt s (IndexOf s key)).depth_ = true <;>
              by_cases hbj : j.testBit (bAt s (IndexOf s key)).depth_ = true
            · rw [hbi, hbj]
            · rw [if_pos (And.intro hdi hbi),
                if_neg (fun hc => hbj hc.2)] at h3
              exact absurd h3.symm (Nat.ne_of_lt (hW.ids j hj))
            · rw [if_neg (fun hc => hbi hc.2),
                if_pos (And.intro hdj hbj)] at h3
              exact absurd h3 (Nat.ne_of_lt (hW.ids i hi))
            · have hbi' : i.testBit (bAt s (IndexOf s key)).depth_ = false := by
                revert hbi
                cases i.testBit (bAt s (IndexOf s key)).depth_ <;> simp
              have hbj' : j.testBit (bAt s (IndexOf s key)).depth_ = false := by
                revert hbj
                cases j.testBit (bAt s (IndexOf s key)).depth_ <;> simp
              rw [hbi', hbj']
          exact mod_two_pow_succ_iff.mpr ⟨hmod, hbits⟩
        · exfalso
          by_cases hbi : i.testBit (bAt s (IndexOf s key)).depth_ = true
          · rw [if_pos (And.intro hdi hbi),
              if_neg (fun hc => hdj hc.1)] at h3
            exact absurd h3.symm (Nat.ne_of_lt (hW.ids j hj))
          · rw [if_neg (fun hc => hbi hc.2),
              if_neg (fun hc => hdj hc.1)] at h3
            exact hdj (h3.symm.trans hdi)
      · rw [if_neg hdi]
        by_cases hdj : s.dir_.getD j 0 = s.dir_.getD (IndexOf s key) 0
        · exfalso
          by_cases hbj : j.testBit (bAt s (IndexOf s key)).depth_ = true
          · rw [if_neg (fun hc => hdi hc.1),
              if_pos (And.intro hdj hbj)] at h3
            exact absurd h3 (Nat.ne_of_lt (hW.ids i hi))
          · rw [if_neg (fun hc => hdi hc.1),
              if_neg (fun hc => hbj hc.2)] at h3
            exact hdi (h3.trans hdj)
        · rw [if_neg (fun hc => hdi hc.1), if_neg (fun hc => hdj hc.1)] at h3
          exact hW.sameb i hi j hj h3
    · intro i hi e he
      rw [hlen3] at hi
      rw [hbAt3 i hi] at he
      rw [hdep3 i hi, hhash3]
      by_cases hdi : s.dir_.getD i 0 = s.dir_.getD (IndexOf s key) 0
      · rw [if_pos hdi] at he
        rw [if_pos hdi]
        have hold : ∀ f ∈ (bAt s (IndexOf s key)).list_,
            s.hashFn f.1 % 2 ^ (bAt s (IndexOf s key)).depth_
              = i % 2 ^ (bAt s (IndexOf s key)).depth_ := by
          intro f hf
          have hro := hW.routed i hi f (by rw [hbb i hdi]; exact hf)
          rwa [show (bAt s i).depth_ = (bAt s (IndexOf s key)).depth_ from
            by rw [hbb i hdi]] at hro
        by_cases hbi : i.testBit (bAt s (IndexOf s key)).depth_ = true
        · rw [if_pos hbi] at he
          obtain ⟨hmem, hbitE⟩ := List.mem_filter.mp he
          refine mod_two_pow_succ_iff.mpr ⟨hold e hmem, ?_⟩
          rw [hbitE, hbi]
        · rw [if_neg hbi] at he
          obtain ⟨hmem, hbitE⟩ := List.mem_filter.mp he
          have hbi' : i.testBit (bAt s (IndexOf s key)).depth_ = false := by
            revert hbi
            cases i.testBit (bAt s (IndexOf s key)).depth_ <;> simp
          have hbitE' : (s.hashFn e.1).testBit (bAt s (IndexOf s key)).depth_
              = false := by
            revert hbitE
            cases (s.hashFn e.1).testBit (bAt s (IndexOf s key)).depth_ <;> simp
          refine mod_two_pow_succ_iff.mpr ⟨hold e hmem, ?_⟩
          rw [hbitE', hbi']
      · rw [if_neg hdi] at he ⊢
        exact hW.routed i hi e he
    · intro i hi
      rw [hlen3] at hi
      rw [hbAt3 i hi]
      split
      · split <;>
          exact ((List.filter_sublist _).map Prod.fst).nodup
            (hW.nodup (IndexOf s key) hidx)
      · exact hW.nodup i hi
    · intro i hi
      rw [hlen3] at hi
      rw [hbAt3 i hi]
      split
      · split <;>
          exact le_trans ((List.filter_sublist _).length_le)
            (hW.cap (IndexOf s key) hidx)
      · exact hW.cap i hi
    · intro i hi
      rw [hlen3] at hi
      rw [hbAt3 i hi, hbsz3]
      split
      · split <;> exact hW.size_eq (IndexOf s key) hidx
      · exact hW.size_eq i hi
  refine ⟨hWs, ?_, hgd3, hhash3, hbsz3, ?_, ?_⟩
  · intro k'
    have hik' : IndexOf s k' < s.dir_.length := idx_lt hW k'
    rw [find_char hWs k', find_char hW k', hidx3 k', hbAt3 _ hik']
    by_cases hdi : s.dir_.getD (IndexOf s k') 0 = s.dir_.getD (IndexOf s key) 0
    · rw [if_pos hdi]
      have hbk : bAt s (IndexOf s k') = bAt s (IndexOf s key) := hbb _ hdi
      have hnd := hW.nodup (IndexOf s key) hidx
      have hbitk : (IndexOf s k').testBit (bAt s (IndexOf s key)).depth_
          = (s.hashFn k').testBit (bAt s (IndexOf s key)).depth_ := by
        rw [show IndexOf s k' = s.hashFn k' % 2 ^ s.global_depth_ from rfl,
          Nat.testBit_mod_two_pow]
        simp [hlt]
      rw [hbk]
      cases hfb : findList (bAt s (IndexOf s key)).list_ k' with
      | none =>
        have hnotin := findList_none_iff.mp hfb
        split <;>
          (rw [findList_none_iff]
           intro e he
           exact hnotin e ((List.filter_sublist _).subset he))
      | some v =>
        have hin : (k', v) ∈ (bAt s (IndexOf s key)).list_ :=
          (findList_eq_some_iff hnd).mp hfb
        split
        · rename_i hbit
          refine (findList_eq_some_iff
            (((List.filter_sublist _).map Prod.fst).nodup hnd)).mpr ?_
          refine List.mem_filter.mpr ⟨hin, ?_⟩
          rw [show ((k', v).1) = k' from rfl, ← hbitk]
          exact hbit
        · rename_i hbit
          refine (findList_eq_some_iff
            (((List.filter_sublist _).map Prod.fst).nodup hnd)).mpr ?_
          refine List.mem_filter.mpr ⟨hin, ?_⟩
          have hbit' : (IndexOf s k').testBit (bAt s (IndexOf s key)).depth_
              = false := by
            revert hbit
            cases (IndexOf s k').testBit (bAt s (IndexOf s key)).depth_ <;> simp
          rw [show ((k', v).1) = k' from rfl, ← hbitk, hbit']
          rfl
    · rw [if_neg hdi]
  · rw [hidx3 key, hbAt3 _ hidx, if_pos rfl]
    split <;> rfl
  · rw [hidx3 key, hbAt3 _ hidx, if_pos rfl]
    split <;> exact List.filter_sublist _

end EHT

namespace EHT

variable {K V : Type} [DecidableEq K]

/-- Full specification of a completed `Insert`: well-formedness is
preserved, the key reads back the inserted value, every other key is
untouched, the global depth never decreases, and the hash function and
bucket capacity are constant. -/
theorem insert_spec : ∀ (n : Nat) {s s' : Table K V} (hW : WF s)
    {key : K} {value : V},
    InsertFuel n s key value = some s' →
    WF s' ∧ Find s' key = some value ∧
    (∀ k', k' ≠ key → Find s' k' = Find s k') ∧
    s.global_depth_ ≤ s'.global_depth_ ∧
    s'.hashFn = s.hashFn ∧ s'.bucket_size_ = s.bucket_size_ := by
  intro n
  induction n with
  | zero => intro s s' hW key value h; cases h
  | succ m ih =>
    intro s s' hW key value h
    simp only [InsertFuel] at h
    rw [show s.store.getD (s.dir_.getD (IndexOf s key) 0) defaultBucket
          = bAt s (IndexOf s key) from rfl] at h
    cases hr : Bucket.Insert (bAt s (IndexOf s key)) key value with
    | mk ok b' =>
      rw [hr] at h
      cases ok with
      | true =>
        have hspec := insert_success_spec hW hr m
        rw [if_pos (show ((true, b').1 = true) from rfl)] at h
        obtain rfl : _ = s' := Option.some.inj h
        exact ⟨hspec.2.1, hspec.2.2.1, hspec.2.2.2, le_refl _, rfl, rfl⟩
      | false =>
        rw [if_neg (show ¬ ((false, b').1 = true) from by simp)] at h
        by_cases hdg : (bAt s (IndexOf s key)).depth_ = s.global_depth_
        · rw [if_pos hdg] at h
          obtain ⟨hWg, hFg, hDg, hBg⟩ := grow_spec hW
          rw [show s.dir_.getD (IndexOf s key) 0
                = (growDirectory s).dir_.getD (IndexOf (growDirectory s) key) 0
              from (hDg key).symm] at h
          have h' : InsertFuel m (splitStep (growDirectory s) key) key value
              = some s' := h
          have hlt' : (bAt (growDirectory s)
              (IndexOf (growDirectory s) key)).depth_
              < (growDirectory s).global_depth_ := by
            rw [hBg key, hdg]
            simp [growDirectory]
          obtain ⟨hWsp, hFsp, hGsp, hHsp, hBsp, -, -⟩ := split_spec hWg key hlt'
          obtain ⟨hW', hFk, hFo, hGle, hH, hB⟩ := ih hWsp h'
          refine ⟨hW', hFk, ?_, ?_, ?_, ?_⟩
          · intro k' hk'
            rw [hFo k' hk', hFsp k', hFg k']
          · calc s.global_depth_ ≤ s.global_depth_ + 1 := Nat.le_succ _
              _ = (growDirectory s).global_depth_ := rfl
              _ = (splitStep (growDirectory s) key).global_depth_ := hGsp.symm
              _ ≤ s'.global_depth_ := hGle
          · rw [hH, hHsp]
            rfl
          · rw [hB, hBsp]
            rfl
        · rw [if_neg hdg] at h
          have h' : InsertFuel m (splitStep s key) key value = some s' := h
          have hlt' : (bAt s (IndexOf s key)).depth_ < s.global_depth_ :=
            lt_of_le_of_ne (hW.depth_le _ (idx_lt hW key)) hdg
          obtain ⟨hWsp, hFsp, hGsp, hHsp, hBsp, -, -⟩ := split_spec hW key hlt'
          obtain ⟨hW', hFk, hFo, hGle, hH, hB⟩ := ih hWsp h'
          refine ⟨hW', hFk, ?_, ?_, ?_, ?_⟩
          · intro k' hk'
            rw [hFo k' hk', hFsp k']
          · calc s.global_depth_
                = (splitStep s key).global_depth_ := hGsp.symm
              _ ≤ s'.global_depth_ := hGle
          · rw [hH, hHsp]
          · rw [hB, hBsp]

end EHT

namespace EHT

variable {K V : Type} [DecidableEq K]

/-- Every reachable table state is well-formed. -/
theorem Reach_WF {s : Table K V} (h : Reach s) : WF s := by
  induction h with
  | init hash sz => exact WF_mkTable hash sz
  | insert n k v _ heq ih => exact (insert_spec n ih heq).1
  | remove k _ ih => exact (remove_spec ih k).1

/-- C5: in every reachable state the directory length is exactly
`2^global_depth_`, and the global depth never decreases across any
operation: a completed `Insert` can only grow it and `Remove` leaves it
unchanged (`Find` does not mutate the state at all). -/
theorem eht_dir_len_pow_and_gd_monotone {s s' : Table K V} {n : Nat}
    {k : K} {v : V} (hs : Reach s) :
    s.dir_.length = 2 ^ s.global_depth_ ∧
    (InsertFuel n s k v = some s' → s.global_depth_ ≤ s'.global_depth_) ∧
    (Remove s k).2.global_depth_ = s.global_depth_ := by
  have hW := Reach_WF hs
  refine ⟨hW.dlen, ?_, (remove_spec hW k).2.1⟩
  intro h
  exact (insert_spec n hW h).2.2.2.1

/-- Witness for C5 at the one-insert reachable state. -/
theorem eht_dir_len_pow_and_gd_monotone_witness :
    (([0] : List Nat).length = 2 ^ 0) ∧
    (InsertFuel 1 (mkTable (K := Nat) (V := Nat) (fun k => k) 2) 5 7
        = some { hashFn := fun k => k, global_depth_ := 0, bucket_size_ := 2,
                 num_buckets_ := 1,
                 store := [{ size_ := 2, depth_ := 0, list_ := [(5, 7)] }],
                 dir_ := [0] } →
      (mkTable (K := Nat) (V := Nat) (fun k => k) 2).global_depth_
        ≤ (0 : Nat)) ∧
    (Remove (mkTable (K := Nat) (V := Nat) (fun k => k) 2) 5).2.global_depth_
      = (mkTable (K := Nat) (V := Nat) (fun k => k) 2).global_depth_ :=
  eht_dir_len_pow_and_gd_monotone (Reach.init (fun k => k) 2)

/-- C10: in every reachable state `IndexOf` is strictly below the
directory length for every key, so the `index >= dir_.size()` early-return
guards of `Find` and `Remove` can never be taken: both operations always
proceed into the bucket. -/
theorem eht_index_of_lt_dir_length {s : Table K V} (hs : Reach s) (key : K) :
    IndexOf s key < s.dir_.length ∧
    ¬ s.dir_.length ≤ IndexOf s key ∧
    Find s key = findList (bAt s (IndexOf s key)).list_ key ∧
    Remove s key
      = ((removeList (bAt s (IndexOf s key)).list_ key).1,
         { s with
           store := s.store.set (s.dir_.getD (IndexOf s key) 0)
                      ({ bAt s (IndexOf s key) with
                          list_ := (removeList (bAt s (IndexOf s key)).list_
                            key).2 }) }) := by
  have hW := Reach_WF hs
  have hidx := idx_lt hW key
  refine ⟨hidx, Nat.not_le.mpr hidx, find_char hW key, ?_⟩
  simp only [Remove]
  rw [if_neg (Nat.not_le.mpr hidx)]
  rfl

/-- Witness for C10 at the fresh single-bucket state. -/
theorem eht_index_of_lt_dir_length_witness :
    IndexOf (mkTable (K := Nat) (V := Nat) (fun k => k) 2) 3
        < (mkTable (K := Nat) (V := Nat) (fun k => k) 2).dir_.length ∧
    ¬ (mkTable (K := Nat) (V := Nat) (fun k => k) 2).dir_.length
        ≤ IndexOf (mkTable (K := Nat) (V := Nat) (fun k => k) 2) 3 ∧
    Find (mkTable (K := Nat) (V := Nat) (fun k => k) 2) 3
      = findList (bAt (mkTable (K := Nat) (V := Nat) (fun k => k) 2)
          (IndexOf (mkTable (K := Nat) (V := Nat) (fun k => k) 2) 3)).list_ 3 ∧
    Remove (mkTable (K := Nat) (V := Nat) (fun k => k) 2) 3
      = ((removeList (bAt (mkTable (K := Nat) (V := Nat) (fun k => k) 2)
            (IndexOf (mkTable (K := Nat) (V := Nat) (fun k => k) 2) 3)).list_ 3).1,
         { mkTable (K := Nat) (V := Nat) (fun k => k) 2 with
           store := (mkTable (K := Nat) (V := Nat) (fun k => k) 2).store.set
             ((mkTable (K := Nat) (V := Nat) (fun k => k) 2).dir_.getD
               (IndexOf (mkTable (K := Nat) (V := Nat) (fun k => k) 2) 3) 0)
             ({ bAt (mkTable (K := Nat) (V := Nat) (fun k => k) 2)
                  (IndexOf (mkTable (K := Nat) (V := Nat) (fun k => k) 2) 3) with
                 list_ := (removeList (bAt (mkTable (K := Nat) (V := Nat)
                   (fun k => k) 2)
                   (IndexOf (mkTable (K := Nat) (V := Nat) (fun k => k) 2)
                     3)).list_ 3).2 }) }) :=
  eht_index_of_lt_dir_length (Reach.init (fun k => k) 2) 3

end EHT

namespace EHT

variable {K V : Type} [DecidableEq K]

theorem find_mkTable (hash : K → Nat) (sz : Nat) (key : K) :
    Find (mkTable (K := K) (V := V) hash sz) key = none := by
  have hidx : IndexOf (mkTable (K := K) (V := V) hash sz) key = 0 :=
    Nat.mod_one _
  simp only [Find, hidx]
  rw [if_neg (by simp [mkTable])]
  rfl

theorem runHOps_find : ∀ (ops : List (HOp K V)) {fuel : Nat}
    {s s' : Table K V} (hW : WF s),
    runHOps fuel s ops = some s' →
    WF s' ∧ ∀ key, Find s' key =
      ops.foldl (fun acc op =>
        match op with
        | .ins k v => if k = key then some v else acc
        | .rem k => if k = key then none else acc) (Find s key) := by
  intro ops
  induction ops with
  | nil =>
    intro fuel s s' hW h
    cases h
    exact ⟨hW, fun key => rfl⟩
  | cons op rest ih =>
    intro fuel s s' hW h
    cases op with
    | ins k v =>
      simp only [runHOps, runHOp] at h
      cases hop : InsertFuel fuel s k v with
      | none => rw [hop] at h; cases h
      | some s1 =>
        rw [hop] at h
        obtain ⟨hW1, hFk, hFo, -, -, -⟩ := insert_spec fuel hW hop
        obtain ⟨hW', hall⟩ := ih hW1 h
        refine ⟨hW', fun key => ?_⟩
        rw [hall key, List.foldl_cons]
        congr 1
        dsimp only
        by_cases hk : k = key
        · subst hk
          rw [if_pos rfl, hFk]
        · rw [if_neg hk, hFo key (fun hx => hk hx.symm)]
    | rem k =>
      simp only [runHOps, runHOp] at h
      obtain ⟨hW1, -, -, -, -, hFnone, hFo⟩ := remove_spec hW k
      obtain ⟨hW', hall⟩ := ih hW1 h
      refine ⟨hW', fun key => ?_⟩
      rw [hall key, List.foldl_cons]
      congr 1
      dsimp only
      by_cases hk : k = key
      · subst hk
        rw [if_pos rfl, hFnone]
      · rw [if_neg hk, hFo key (fun hx => hk hx.symm)]

/-- C3: for every sequence of completed insert/remove operations starting
from a fresh table, `find(key)` returns exactly the last-write-wins value of
the history — the most recent inserted value for the key unless a later
remove cleared it — across all bucket splits and directory doublings. -/
theorem eht_find_last_write (hash : K → Nat) (sz fuel : Nat)
    {ops : List (HOp K V)} {s : Table K V}
    (h : runHOps fuel (mkTable hash sz) ops = some s) (key : K) :
    Find s key = specLookup ops key := by
  obtain ⟨-, hall⟩ := runHOps_find ops (WF_mkTable hash sz) h
  rw [hall key, specLookup, find_mkTable]

/-- Witness for C3: a history with two fills, a capacity-overflow split, a
remove and an overwrite; the final lookup equals the reference
last-write-wins semantics. -/
theorem eht_find_last_write_witness :
    Find ({ hashFn := fun k => k, global_depth_ := 1, bucket_size_ := 2,
            num_buckets_ := 2,
            store := [{ size_ := 2, depth_ := 1, list_ := [] },
                      { size_ := 2, depth_ := 1, list_ := [(1, 99), (3, 30)] }],
            dir_ := [0, 1] } : Table Nat Nat) 1
      = specLookup [HOp.ins 1 10, HOp.ins 2 20, HOp.ins 3 30,
          HOp.rem 2, HOp.ins 1 99] 1 :=
  eht_find_last_write (fun k => k) 2 10
    (s := { hashFn := fun k => k, global_depth_ := 1, bucket_size_ := 2,
            num_buckets_ := 2,
            store := [{ size_ := 2, depth_ := 1, list_ := [] },
                      { size_ := 2, depth_ := 1, list_ := [(1, 99), (3, 30)] }],
            dir_ := [0, 1] })
    (by rfl) 1

end EHT

namespace EHT

variable {K V : Type} [DecidableEq K]

theorem le_foldr_max_init (l : List Nat) (a : Nat) : a ≤ l.foldr max a := by
  induction l with
  | nil => exact le_refl a
  | cons x rest ih => exact le_trans ih (le_max_right _ _)

theorem le_foldr_max_mem {l : List Nat} {x : Nat} (h : x ∈ l) (a : Nat) :
    x ≤ l.foldr max a := by
  induction l with
  | nil => simp at h
  | cons y rest ih =>
    rcases List.mem_cons.mp h with rfl | h'
    · exact le_max_left _ _
    · exact le_trans (ih h') (le_max_right _ _)

theorem bucketInsert_false_spec {b b' : Bucket K V} {key : K} {value : V}
    (h : Bucket.Insert b key value = (false, b')) :
    b.size_ ≤ b.list_.length ∧ findList b.list_ key = none := by
  unfold Bucket.Insert at h
  cases hov : overwriteList b.list_ key value with
  | some l =>
    rw [hov] at h
    simp only [Prod.mk.injEq] at h
    exact absurd h.1 (by simp)
  | none =>
    rw [hov] at h
    split at h
    · rename_i heq
      exact Option.noConfusion heq
    · split at h
      · rename_i hfull
        exact ⟨by simpa [Bucket.IsFull] using hfull,
          overwriteList_none_iff.mp hov⟩
      · simp only [Prod.mk.injEq] at h
        exact absurd h.1 (by simp)

/-- Inner induction for insert termination: if every entry of the current
target bucket whose hash agrees with the key's hash modulo `2^N` has
exactly the key's hash, fewer than `bucket_size_` entries have exactly the
key's hash, and the depth budget `d` covers `N`, then `d + 1` retry
iterations complete the insert. -/
theorem insert_fuel_reaches : ∀ (d : Nat) {s : Table K V}, WF s →
    ∀ {key : K} (value : V) (N : Nat),
    (∀ e ∈ (bAt s (IndexOf s key)).list_,
      s.hashFn e.1 % 2 ^ N = s.hashFn key % 2 ^ N →
      s.hashFn e.1 = s.hashFn key) →
    ((bAt s (IndexOf s key)).list_.filter
      (fun e => s.hashFn e.1 = s.hashFn key)).length < s.bucket_size_ →
    N ≤ (bAt s (IndexOf s key)).depth_ + d →
    ∃ s', InsertFuel (d + 1) s key value = some s' := by
  intro d
  induction d with
  | zero =>
    intro s hW key value N hkey hcount hd
    cases hr : Bucket.Insert (bAt s (IndexOf s key)) key value with
    | mk ok b' =>
      cases ok with
      | true => exact ⟨_, (insert_success_spec hW hr 0).1⟩
      | false =>
        exfalso
        have hidx := idx_lt hW key
        -- failure means the bucket is full
        have hfull : (bAt s (IndexOf s key)).size_
            ≤ (bAt s (IndexOf s key)).list_.length :=
          (bucketInsert_false_spec hr).1
        -- every entry of the target bucket has exactly the key's hash
        have hallhash : ∀ e ∈ (bAt s (IndexOf s key)).list_,
            s.hashFn e.1 = s.hashFn key := by
          intro e he
          have hro := hW.routed _ hidx e he
          have hkm : s.hashFn key % 2 ^ (bAt s (IndexOf s key)).depth_
              = IndexOf s key % 2 ^ (bAt s (IndexOf s key)).depth_ := by
            rw [show IndexOf s key = s.hashFn key % 2 ^ s.global_depth_ from rfl]
            exact (Nat.mod_mod_of_dvd _
              (Nat.pow_dvd_pow 2 (hW.depth_le _ hidx))).symm
          have hmodd : s.hashFn e.1 % 2 ^ (bAt s (IndexOf s key)).depth_
              = s.hashFn key % 2 ^ (bAt s (IndexOf s key)).depth_ :=
            hro.trans hkm.symm
          exact hkey e he (mod_two_pow_mono (by omega) hmodd)
        have hfilt : (bAt s (IndexOf s key)).list_.filter
            (fun e => s.hashFn e.1 = s.hashFn key)
            = (bAt s (IndexOf s key)).list_ := by
          rw [List.filter_eq_self]
          intro e he
          exact decide_eq_true (hallhash e he)
        rw [hfilt] at hcount
        have hsz := hW.size_eq _ hidx
        omega
  | succ m ihm =>
    intro s hW key value N hkey hcount hd
    cases hr : Bucket.Insert (bAt s (IndexOf s key)) key value with
    | mk ok b' =>
      cases ok with
      | true => exact ⟨_, (insert_success_spec hW hr (m + 1)).1⟩
      | false =>
        have hidx := idx_lt hW key
        -- establish the state the retry continues from
        by_cases hdg : (bAt s (IndexOf s key)).depth_ = s.global_depth_
        · obtain ⟨hWg, hFg, hDg, hBg⟩ := grow_spec hW
          have hstep : InsertFuel (m + 1 + 1) s key value
              = InsertFuel (m + 1) (splitStep (growDirectory s) key)
                  key value := by
            simp only [InsertFuel]
            rw [show s.store.getD (s.dir_.getD (IndexOf s key) 0) defaultBucket
                  = bAt s (IndexOf s key) from rfl, hr]
            rw [if_neg (show ¬ ((false, b').1 = true) from by simp)]
            rw [if_pos hdg]
            rw [show s.dir_.getD (IndexOf s key) 0
                  = (growDirectory s).dir_.getD
                      (IndexOf (growDirectory s) key) 0
                from (hDg key).symm]
            rfl
          have hlt' : (bAt (growDirectory s)
              (IndexOf (growDirectory s) key)).depth_
              < (growDirectory s).global_depth_ := by
            rw [hBg key, hdg]
            simp [growDirectory]
          obtain ⟨hWsp, -, -, hHsp, hBsp, hDep, hSub⟩ :=
            split_spec hWg key hlt'
          have hSub' : (bAt (splitStep (growDirectory s) key)
              (IndexOf (splitStep (growDirectory s) key) key)).list_.Sublist
              (bAt s (IndexOf s key)).list_ := by
            rw [hBg key] at hSub
            exact hSub
          have hHeq : (splitStep (growDirectory s) key).hashFn = s.hashFn := hHsp
          have hBeq : (splitStep (growDirectory s) key).bucket_size_
              = s.bucket_size_ := hBsp
          obtain ⟨s', hs'⟩ := ihm hWsp value N
            (by
              rw [hHeq]
              intro e he hm
              exact hkey e (hSub'.subset he) hm)
            (by
              rw [hHeq, hBeq]
              exact lt_of_le_of_lt (List.Sublist.length_le
                (hSub'.filter _)) hcount)
            (by
              rw [hDep, hBg key]
              omega)
          exact ⟨s', by rw [hstep]; exact hs'⟩
        · have hstep : InsertFuel (m + 1 + 1) s key value
              = InsertFuel (m + 1) (splitStep s key) key value := by
            simp only [InsertFuel]
            rw [show s.store.getD (s.dir_.getD (IndexOf s key) 0) defaultBucket
                  = bAt s (IndexOf s key) from rfl, hr]
            rw [if_neg (show ¬ ((false, b').1 = true) from by simp)]
            rw [if_neg hdg]
            rfl
          have hlt' : (bAt s (IndexOf s key)).depth_ < s.global_depth_ :=
            lt_of_le_of_ne (hW.depth_le _ hidx) hdg
          obtain ⟨hWsp, -, -, hHsp, hBsp, hDep, hSub⟩ := split_spec hW key hlt'
          obtain ⟨s', hs'⟩ := ihm hWsp value N
            (by
              rw [hHsp]
              intro e he hm
              exact hkey e (hSub.subset he) hm)
            (by
              rw [hHsp, hBsp]
              exact lt_of_le_of_lt (List.Sublist.length_le
                (hSub.filter _)) hcount)
            (by
              rw [hDep]
              omega)
          exact ⟨s', by rw [hstep]; exact hs'⟩

end EHT

namespace EHT

variable {K V : Type} [DecidableEq K]

/-- C7 (amended): `Insert` terminates on every well-formed table state and
every key PROVIDED fewer than `bucket_size_` entries of the target bucket
share the key's exact hash value; with `bucket_size_` same-hash entries and
the key absent, the split-retry loop runs forever (see the
counterexample). -/
theorem eht_insert_terminates {s : Table K V} (hW : WF s) (key : K)
    (value : V)
    (hcount : ((bAt s (IndexOf s key)).list_.filter
      (fun e => s.hashFn e.1 = s.hashFn key)).length < s.bucket_size_) :
    InsertTerminates s key value := by
  set M := ((bAt s (IndexOf s key)).list_.map
    (fun e => s.hashFn e.1)).foldr max (s.hashFn key) with hM
  have hkey : ∀ e ∈ (bAt s (IndexOf s key)).list_,
      s.hashFn e.1 % 2 ^ (M + 1) = s.hashFn key % 2 ^ (M + 1) →
      s.hashFn e.1 = s.hashFn key := by
    intro e he hm
    have h1 : s.hashFn e.1 ≤ M :=
      le_foldr_max_mem (List.mem_map_of_mem (fun e => s.hashFn e.1) he) _
    have h2 : s.hashFn key ≤ M := le_foldr_max_init _ _
    have hb : M < 2 ^ M := Nat.lt_two_pow M
    have hp : (2 : Nat) ^ M ≤ 2 ^ (M + 1) :=
      Nat.pow_le_pow_right (by omega) (Nat.le_succ M)
    have hlt1 : s.hashFn e.1 < 2 ^ (M + 1) := by omega
    have hlt2 : s.hashFn key < 2 ^ (M + 1) := by omega
    rwa [Nat.mod_eq_of_lt hlt1, Nat.mod_eq_of_lt hlt2] at hm
  obtain ⟨s', hs'⟩ := insert_fuel_reaches (M + 1) hW value (M + 1) hkey
    hcount (Nat.le_add_left _ _)
  exact ⟨M + 1 + 1, s', hs'⟩

/-- Witness for the amended C7: an insert into a fresh capacity-1 table
terminates. -/
theorem eht_insert_terminates_witness :
    InsertTerminates (mkTable (K := Nat) (V := Nat) (fun k => k) 1) 0 5 :=
  eht_insert_terminates (WF_mkTable _ _) 0 5 (by decide)

end EHT
